import Mathlib

/-!
Shallow embedding of the `tsv-mt-openai` repository
(`src/scripts/placeholders.py` and `src/scripts/translate_tsv.py`)
and proofs about its placeholder masking, batching, retry and
orchestration logic.

Python strings are modelled as lists of characters (`Str`), Python
floats appearing in the retry-delay arithmetic as rationals, and the
network as explicit response data passed to the functions that consume
it.
-/

/-- Python strings, modelled as lists of characters. -/
abbrev Str := List Char

/-- The character class `[A-Z]` of the percent-token regex. -/
def isUpperAZ (c : Char) : Bool := decide ('A' ≤ c) && decide (c ≤ 'Z')

/-- The character class `[0-9]` (also `\d` of `PH_RE`). -/
def isDigit09 (c : Char) : Bool := decide ('0' ≤ c) && decide (c ≤ '9')

/-- The character class `[A-Z0-9_]` of the percent-token regex. -/
def isMacroChar (c : Char) : Bool := isUpperAZ c || isDigit09 c || c == '_'

/-- The character class `[-+0-9.#]` of the printf-token regex. -/
def isFlagChar (c : Char) : Bool :=
  c == '-' || c == '+' || isDigit09 c || c == '.' || c == '#'

/-- The character class `[a-zA-Z]` of the printf-token regex. -/
def isAlphaC (c : Char) : Bool :=
  (decide ('a' ≤ c) && decide (c ≤ 'z')) || (decide ('A' ≤ c) && decide (c ≤ 'Z'))

/-- The decimal digit characters, as produced by Python `str` on `0..9`. -/
def digitChar : Nat → Char
  | 0 => '0' | 1 => '1' | 2 => '2' | 3 => '3' | 4 => '4'
  | 5 => '5' | 6 => '6' | 7 => '7' | 8 => '8' | _ => '9'

/-- Left inverse of `digitChar` on `0..9`. -/
def charToDigit : Char → Nat
  | '0' => 0 | '1' => 1 | '2' => 2 | '3' => 3 | '4' => 4
  | '5' => 5 | '6' => 6 | '7' => 7 | '8' => 8 | _ => 9

/-- Decimal representation of a natural number, as Python `str`/f-strings
produce it (no sign, no leading zeros except for `0` itself). -/
def natDigits (n : Nat) : Str :=
  if _h : n < 10 then [digitChar n]
  else natDigits (n / 10) ++ [digitChar (n % 10)]
  termination_by n
  decreasing_by
    exact Nat.div_lt_self (by omega) (by omega)

theorem digitChar_isDigit (d : Nat) : isDigit09 (digitChar d) = true := by
  unfold digitChar
  split <;> decide

theorem charToDigit_digitChar {d : Nat} (h : d < 10) :
    charToDigit (digitChar d) = d := by
  interval_cases d <;> rfl

theorem natDigits_ne_nil (n : Nat) : natDigits n ≠ [] := by
  rw [natDigits]
  split <;> simp

theorem natDigits_all_digit (n : Nat) : ∀ c ∈ natDigits n, isDigit09 c = true := by
  induction n using Nat.strong_induction_on with
  | _ n ih =>
    rw [natDigits]
    split
    · intro c hc
      simp only [List.mem_singleton] at hc
      subst hc
      exact digitChar_isDigit n
    · intro c hc
      rcases List.mem_append.1 hc with h1 | h1
      · exact ih (n / 10) (Nat.div_lt_self (by omega) (by omega)) c h1
      · simp only [List.mem_singleton] at h1
        subst h1
        exact digitChar_isDigit _

/-- Decimal parse, used only to show `natDigits` is injective. -/
def digitsVal (s : Str) : Nat := s.foldl (fun a c => 10 * a + charToDigit c) 0

theorem digitsVal_append_singleton (s : Str) (c : Char) :
    digitsVal (s ++ [c]) = 10 * digitsVal s + charToDigit c := by
  simp [digitsVal, List.foldl_append]

theorem digitsVal_natDigits (n : Nat) : digitsVal (natDigits n) = n := by
  induction n using Nat.strong_induction_on with
  | _ n ih =>
    rw [natDigits]
    split
    · next h => simp [digitsVal, charToDigit_digitChar h]
    · rw [digitsVal_append_singleton,
        ih (n / 10) (Nat.div_lt_self (by omega) (by omega)),
        charToDigit_digitChar (Nat.mod_lt _ (by omega))]
      omega

theorem natDigits_injective {m n : Nat} (h : natDigits m = natDigits n) : m = n := by
  have := digitsVal_natDigits m
  rw [h, digitsVal_natDigits] at this
  exact this.symm

theorem underscore_not_digit : isDigit09 '_' = false := by decide

/-- The mask token `__PH{n}__` inserted by `mask_placeholders` and searched
for by `PH_RE` and `restore_placeholders`. -/
def phToken (n : Nat) : Str :=
  '_' :: '_' :: 'P' :: 'H' :: (natDigits n ++ ['_', '_'])

theorem phToken_ne_nil (n : Nat) : phToken n ≠ [] := by simp [phToken]

/-- Unfolding a prefix relation through a `cons` on both sides. -/
theorem cons_prefix_iff {a b : Char} {as bs : Str} :
    (a :: as) <+: (b :: bs) ↔ a = b ∧ as <+: bs := by
  constructor
  · rintro ⟨t, ht⟩
    injection ht with h1 h2
    exact ⟨h1, t, h2⟩
  · rintro ⟨rfl, t, ht⟩
    exact ⟨t, by rw [← ht]; rfl⟩

/-- Two all-digit runs each followed by `'_'` and compatible as prefixes of
the same string must be the same run. -/
theorem digits_prefix_eq :
    ∀ (d1 d2 r1 r2 : Str), (∀ c ∈ d1, isDigit09 c = true) →
      (∀ c ∈ d2, isDigit09 c = true) →
      (d1 ++ '_' :: r1) <+: (d2 ++ '_' :: r2) → d1 = d2 ∧ r1 <+: r2 := by
  intro d1
  induction d1 with
  | nil =>
    intro d2 r1 r2 _ hd2 hp
    cases d2 with
    | nil =>
      simp only [List.nil_append, cons_prefix_iff] at hp
      exact ⟨rfl, hp.2⟩
    | cons c t =>
      simp only [List.nil_append, List.cons_append, cons_prefix_iff] at hp
      have : isDigit09 c = true := hd2 c (by simp)
      rw [← hp.1] at this
      simp [underscore_not_digit] at this
  | cons a as ih =>
    intro d2 r1 r2 hd1 hd2 hp
    cases d2 with
    | nil =>
      simp only [List.cons_append, List.nil_append, cons_prefix_iff] at hp
      have : isDigit09 a = true := hd1 a (by simp)
      rw [hp.1] at this
      simp [underscore_not_digit] at this
    | cons b bs =>
      simp only [List.cons_append, cons_prefix_iff] at hp
      obtain ⟨rfl, hp2⟩ := hp
      obtain ⟨h1, h2⟩ := ih bs r1 r2 (fun c hc => hd1 c (by simp [hc]))
        (fun c hc => hd2 c (by simp [hc])) hp2
      exact ⟨by rw [h1], h2⟩

/-- If one mask token is a prefix of another mask token followed by
anything, the two tokens carry the same index. -/
theorem phToken_prefix_eq {i j : Nat} {r : Str}
    (h : phToken i <+: phToken j ++ r) : i = j := by
  simp only [phToken, List.cons_append, cons_prefix_iff] at h
  obtain ⟨-, -, -, -, h⟩ := h
  have h' : (natDigits i ++ '_' :: ['_']) <+: (natDigits j ++ '_' :: ('_' :: r)) := by
    simpa using h
  exact natDigits_injective (digits_prefix_eq _ _ _ _
    (natDigits_all_digit i) (natDigits_all_digit j) h').1

theorem takeWhile_append_drop (p : Char → Bool) (l : Str) :
    l.takeWhile p ++ l.drop (l.takeWhile p).length = l := by
  induction l with
  | nil => rfl
  | cons c t ih =>
    cases h : p c <;> simp [List.takeWhile_cons, h, ih]

theorem drop_takeWhile_head (p : Char → Bool) :
    ∀ (l : Str) {c : Char} {rest : Str},
      l.drop (l.takeWhile p).length = c :: rest → p c = false := by
  intro l
  induction l with
  | nil => intro c rest h; simp at h
  | cons a t ih =>
    intro c rest h
    cases ha : p a
    · simp only [List.takeWhile_cons, ha] at h
      simp at h
      rw [← h.1]; exact ha
    · simp only [List.takeWhile_cons, ha] at h
      simp at h
      exact ih h

theorem takeWhile_all_append (p : Char → Bool) {xs : Str} (y : Char) (ys : Str)
    (hall : ∀ c ∈ xs, p c = true) (hy : p y = false) :
    (xs ++ y :: ys).takeWhile p = xs := by
  induction xs with
  | nil => simp [List.takeWhile_cons, hy]
  | cons a t ih =>
    have ha : p a = true := hall a (by simp)
    simp only [List.cons_append, List.takeWhile_cons, ha, if_true]
    rw [ih (fun c hc => hall c (by simp [hc]))]

set_option linter.unusedVariables false in
/-- Python's `str.replace(pat, rep)` with a non-empty pattern: scan left to
right, replace each non-overlapping occurrence, continue after the
replacement.  (`restore_placeholders` only ever calls it with the non-empty
pattern `__PH{idx}__`.) -/
def replaceAll (s pat rep : Str) : Str :=
  match s with
  | [] => []
  | c :: cs =>
    if hc : pat ≠ [] ∧ pat <+: (c :: cs) then
      rep ++ replaceAll ((c :: cs).drop pat.length) pat rep
    else c :: replaceAll cs pat rep
  termination_by s.length
  decreasing_by
  · simp only [List.length_drop, List.length_cons]
    have : pat.length ≥ 1 := by
      rcases pat with _ | ⟨x, xs⟩
      · exact absurd rfl hc.1
      · simp
    omega
  · simp

theorem replaceAll_nil (pat rep : Str) : replaceAll [] pat rep = [] := by
  rw [replaceAll]

theorem replaceAll_pos {pat : Str} (c : Char) (cs : Str) (rep : Str)
    (h : pat ≠ []) (hp : pat <+: (c :: cs)) :
    replaceAll (c :: cs) pat rep
      = rep ++ replaceAll ((c :: cs).drop pat.length) pat rep := by
  rw [replaceAll, dif_pos ⟨h, hp⟩]

theorem replaceAll_neg {pat : Str} (c : Char) (cs : Str) (rep : Str)
    (h : ¬ pat <+: (c :: cs)) :
    replaceAll (c :: cs) pat rep = c :: replaceAll cs pat rep := by
  rw [replaceAll, dif_neg (fun hc => h hc.2)]

/-- First alternative of `PLACEHOLDER_PATTERN`: `(\\[nt])`. -/
def tryEscape : Str → Option (Str × Str)
  | a :: b :: rest =>
    if a = '\\' ∧ (b = 'n' ∨ b = 't') then some ([a, b], rest) else none
  | _ => none

/-- Second alternative of `PLACEHOLDER_PATTERN`: `(%[A-Z][A-Z0-9_]+)`,
greedy and with nothing after the `+`, so it takes the maximal run. -/
def tryMacroTok : Str → Option (Str × Str)
  | a :: b :: rest =>
    if a = '%' ∧ isUpperAZ b = true then
      if rest.takeWhile isMacroChar = [] then none
      else some (a :: b :: rest.takeWhile isMacroChar,
        rest.drop (rest.takeWhile isMacroChar).length)
    else none
  | _ => none

/-- Third alternative of `PLACEHOLDER_PATTERN`: `(%[-+0-9.#]*[a-zA-Z])`.
The flag class and the letter class are disjoint, so the greedy `*` with
backtracking is the maximal flag run followed by a letter. -/
def tryPrintfTok : Str → Option (Str × Str)
  | a :: rest =>
    if a = '%' then
      match _h : rest.drop (rest.takeWhile isFlagChar).length with
      | c :: rest' =>
        if isAlphaC c = true then some (a :: rest.takeWhile isFlagChar ++ [c], rest')
        else none
      | [] => none
    else none
  | [] => none

/-- Fourth alternative of `PLACEHOLDER_PATTERN`: `(\{[^}]+\})`: an opening
brace, a non-empty run of non-`}` characters, then the first `}`. -/
def tryBraceTok : Str → Option (Str × Str)
  | a :: rest =>
    if a = '{' then
      if rest.takeWhile (fun c => !(c == '}')) = [] then none
      else
        match _h : rest.drop (rest.takeWhile (fun c => !(c == '}'))).length with
        | c :: rest' =>
          if c = '}' then
            some (a :: rest.takeWhile (fun c => !(c == '}')) ++ [c], rest')
          else none
        | [] => none
    else none
  | [] => none

/-- Fifth alternative of `PLACEHOLDER_PATTERN`: `(<[^>]+>)`. -/
def tryAngleTok : Str → Option (Str × Str)
  | a :: rest =>
    if a = '<' then
      if rest.takeWhile (fun c => !(c == '>')) = [] then none
      else
        match _h : rest.drop (rest.takeWhile (fun c => !(c == '>'))).length with
        | c :: rest' =>
          if c = '>' then
            some (a :: rest.takeWhile (fun c => !(c == '>')) ++ [c], rest')
          else none
        | [] => none
    else none
  | [] => none

/-- Matching `PLACEHOLDER_PATTERN` at the start of `s`: the five
alternatives are tried in the order they appear in the regex. -/
def tryMatch (s : Str) : Option (Str × Str) :=
  match tryEscape s with
  | some r => some r
  | none =>
    match tryMacroTok s with
    | some r => some r
    | none =>
      match tryPrintfTok s with
      | some r => some r
      | none =>
        match tryBraceTok s with
        | some r => some r
        | none => tryAngleTok s

theorem tryEscape_sound {s m rest : Str} (h : tryEscape s = some (m, rest)) :
    m ≠ [] ∧ s = m ++ rest := by
  match s with
  | [] => simp [tryEscape] at h
  | [a] => simp [tryEscape] at h
  | a :: b :: t =>
    rw [tryEscape] at h
    split at h
    · injection h with h'
      injection h' with h1 h2
      subst h1 h2
      simp
    · exact absurd h (by simp)

theorem tryMacroTok_sound {s m rest : Str} (h : tryMacroTok s = some (m, rest)) :
    m ≠ [] ∧ s = m ++ rest := by
  match s with
  | [] => simp [tryMacroTok] at h
  | [a] => simp [tryMacroTok] at h
  | a :: b :: t =>
    rw [tryMacroTok] at h
    split at h
    · split at h
      · exact absurd h (by simp)
      · injection h with h'
        injection h' with h1 h2
        subst h1 h2
        simp only [ne_eq, List.cons_append, List.cons.injEq, true_and]
        refine ⟨by simp, ?_⟩
        exact (takeWhile_append_drop isMacroChar t).symm
    · exact absurd h (by simp)

theorem tryPrintfTok_sound {s m rest : Str} (h : tryPrintfTok s = some (m, rest)) :
    m ≠ [] ∧ s = m ++ rest := by
  match s with
  | [] => simp [tryPrintfTok] at h
  | a :: t =>
    rw [tryPrintfTok] at h
    split at h
    · split at h
      · next c rest' heq =>
        split at h
        · injection h with h'
          injection h' with h1 h2
          subst h1 h2
          simp only [ne_eq, List.cons_append, List.cons.injEq, true_and]
          refine ⟨by simp, ?_⟩
          have := takeWhile_append_drop isFlagChar t
          rw [heq] at this
          rw [List.append_assoc]
          simpa using this.symm
        · exact absurd h (by simp)
      · exact absurd h (by simp)
    · exact absurd h (by simp)

theorem tryBraceTok_sound {s m rest : Str} (h : tryBraceTok s = some (m, rest)) :
    m ≠ [] ∧ s = m ++ rest := by
  match s with
  | [] => simp [tryBraceTok] at h
  | a :: t =>
    rw [tryBraceTok] at h
    split at h
    · split at h
      · exact absurd h (by simp)
      · split at h
        · next c rest' heq =>
          split at h
          · injection h with h'
            injection h' with h1 h2
            subst h1 h2
            simp only [ne_eq, List.cons_append, List.cons.injEq, true_and]
            refine ⟨by simp, ?_⟩
            have := takeWhile_append_drop (fun c => !(c == '}')) t
            rw [heq] at this
            rw [List.append_assoc]
            simpa using this.symm
          · exact absurd h (by simp)
        · exact absurd h (by simp)
    · exact absurd h (by simp)

theorem tryAngleTok_sound {s m rest : Str} (h : tryAngleTok s = some (m, rest)) :
    m ≠ [] ∧ s = m ++ rest := by
  match s with
  | [] => simp [tryAngleTok] at h
  | a :: t =>
    rw [tryAngleTok] at h
    split at h
    · split at h
      · exact absurd h (by simp)
      · split at h
        · next c rest' heq =>
          split at h
          · injection h with h'
            injection h' with h1 h2
            subst h1 h2
            simp only [ne_eq, List.cons_append, List.cons.injEq, true_and]
            refine ⟨by simp, ?_⟩
            have := takeWhile_append_drop (fun c => !(c == '>')) t
            rw [heq] at this
            rw [List.append_assoc]
            simpa using this.symm
          · exact absurd h (by simp)
        · exact absurd h (by simp)
    · exact absurd h (by simp)

theorem tryMatch_sound {s m rest : Str} (h : tryMatch s = some (m, rest)) :
    m ≠ [] ∧ s = m ++ rest := by
  rw [tryMatch] at h
  split at h
  · next h1 => injection h with h'; subst h'; exact tryEscape_sound h1
  · split at h
    · next h1 => injection h with h'; subst h'; exact tryMacroTok_sound h1
    · split at h
      · next h1 => injection h with h'; subst h'; exact tryPrintfTok_sound h1
      · split at h
        · next h1 => injection h with h'; subst h'; exact tryBraceTok_sound h1
        · exact tryAngleTok_sound h

/-- One chunk of the left-to-right scan of `PLACEHOLDER_PATTERN.sub`:
either a character at which no alternative matched, or a matched literal. -/
inductive Chunk where
  | ch (c : Char)
  | lit (l : Str)
deriving DecidableEq

set_option linter.unusedVariables false in
/-- The decomposition of a text produced by the left-to-right scan of
`re.sub`: at each position try the pattern; on a match consume it as a
`lit`, otherwise consume one character as a `ch`. -/
def parseChunks (s : Str) : List Chunk :=
  match hm : tryMatch s with
  | some (m, rest) => .lit m :: parseChunks rest
  | none =>
    match s with
    | [] => []
    | c :: cs => .ch c :: parseChunks cs
  termination_by s.length
  decreasing_by
  · obtain ⟨hne, heq⟩ := tryMatch_sound hm
    subst heq
    rcases m with _ | ⟨x, xs⟩
    · exact absurd rfl hne
    · simp
      omega
  · simp

/-- The text a chunk came from. -/
def Chunk.flat : Chunk → Str
  | .ch c => [c]
  | .lit l => l

/-- Concatenation of the chunks' original text. -/
def flatChunks (cs : List Chunk) : Str := (cs.map Chunk.flat).flatten

/-- The matched literals of a chunk list, in order. -/
def chunkLits : List Chunk → List Str
  | [] => []
  | .ch _ :: t => chunkLits t
  | .lit l :: t => l :: chunkLits t

/-- Render a chunk list, numbering the `lit` chunks `k, k+1, ...`: the
`lit` chunks with number `< i` are shown as their literal text (already
restored), those with number `≥ i` as their mask token `__PH{n}__`. -/
def renderR : List Chunk → Nat → Nat → Str
  | [], _, _ => []
  | .ch c :: t, k, i => c :: renderR t k i
  | .lit l :: t, k, i => (if k < i then l else phToken k) ++ renderR t (k + 1) i

set_option linter.unusedVariables false in
/-- The body of `mask_placeholders`: `PLACEHOLDER_PATTERN.sub(repl, text)`
where `repl` appends the match to `placeholders` (here `acc`) and returns
`__PH{len(placeholders) - 1}__`. -/
def maskAux (s : Str) (acc : List Str) : Str × List Str :=
  match hm : tryMatch s with
  | some (m, rest) =>
    let out := maskAux rest (acc ++ [m])
    (phToken acc.length ++ out.1, out.2)
  | none =>
    match s with
    | [] => ([], acc)
    | c :: cs =>
      let out := maskAux cs acc
      (c :: out.1, out.2)
  termination_by s.length
  decreasing_by
  · obtain ⟨hne, heq⟩ := tryMatch_sound hm
    subst heq
    rcases m with _ | ⟨x, xs⟩
    · exact absurd rfl hne
    · simp
      omega
  · simp

/-- `mask_placeholders` from `src/scripts/placeholders.py`: returns the
masked text and the ordered list of matched literals. -/
def mask_placeholders (text : Str) : Str × List Str := maskAux text []

/-- The loop of `restore_placeholders`: `enumerate(placeholders)` starting
at index `i`, replacing `__PH{idx}__` by the recorded token. -/
def restoreAux (toks : List Str) (i : Nat) (text : Str) : Str :=
  match toks with
  | [] => text
  | t :: ts => restoreAux ts (i + 1) (replaceAll text (phToken i) t)

/-- `restore_placeholders` from `src/scripts/placeholders.py`. -/
def restore_placeholders (text : Str) (placeholders : List Str) : Str :=
  restoreAux placeholders 0 text

/-- Matching `PH_RE = __PH\d+__` at the start of `s` (greedy `\d+`; the
digit class and `'_'` are disjoint, so this is the maximal digit run
followed by `__`). -/
def matchPH (s : Str) : Option (Str × Str) :=
  match s with
  | a :: b :: c :: d :: rest =>
    if a = '_' ∧ b = '_' ∧ c = 'P' ∧ d = 'H' then
      if rest.takeWhile isDigit09 = [] then none
      else
        match rest.drop (rest.takeWhile isDigit09).length with
        | e :: f :: rest' =>
          if e = '_' ∧ f = '_' then
            some (a :: b :: c :: d :: (rest.takeWhile isDigit09 ++ [e, f]), rest')
          else none
        | _ => none
    else none
  | _ => none

theorem matchPH_sound {s m rest : Str} (h : matchPH s = some (m, rest)) :
    m ≠ [] ∧ s = m ++ rest := by
  match s with
  | [] => simp [matchPH] at h
  | [a] => simp [matchPH] at h
  | [a, b] => simp [matchPH] at h
  | [a, b, c] => simp [matchPH] at h
  | a :: b :: c :: d :: t =>
    rw [matchPH] at h
    split at h
    · split at h
      · exact absurd h (by simp)
      · split at h
        · next e f rest' heq =>
          split at h
          · injection h with h'
            injection h' with h1 h2
            subst h1 h2
            refine ⟨by simp, ?_⟩
            have := takeWhile_append_drop isDigit09 t
            rw [heq] at this
            simp only [List.cons_append, List.cons.injEq, true_and]
            rw [List.append_assoc]
            simpa using this.symm
          · exact absurd h (by simp)
        · exact absurd h (by simp)
    · exact absurd h (by simp)

set_option linter.unusedVariables false in
/-- `PH_RE.findall`: left-to-right scan collecting non-overlapping matches
of `__PH\d+__`. -/
def findPH (s : Str) : List Str :=
  match hm : matchPH s with
  | some (m, rest) => m :: findPH rest
  | none =>
    match s with
    | [] => []
    | _ :: cs => findPH cs
  termination_by s.length
  decreasing_by
  · obtain ⟨hne, heq⟩ := matchPH_sound hm
    subst heq
    rcases m with _ | ⟨x, xs⟩
    · exact absurd rfl hne
    · simp
      omega
  · simp

/-- `placeholders_match` from `src/scripts/placeholders.py`:
`PH_RE.findall(masked_source) == PH_RE.findall(masked_translation)`. -/
def placeholders_match (masked_source masked_translation : Str) : Bool :=
  decide (findPH masked_source = findPH masked_translation)

/-! ### `src/scripts/translate_tsv.py` -/

/-- `MAX_CHARS_PER_REQUEST` from `src/scripts/translate_tsv.py`. -/
def MAX_CHARS_PER_REQUEST : Nat := 9000

/-- The loop of `batched_indices`, iterating over `enumerate(texts)` with
the accumulated `batches`, `current` and `current_chars`. -/
def batchGo (batch_size : Nat) :
    List (Nat × Str) → List (List Nat) → List Nat → Nat → List (List Nat)
  | [], batches, current, _ =>
    if current = [] then batches else batches ++ [current]
  | (idx, text) :: rest, batches, current, current_chars =>
    if current ≠ [] ∧ (batch_size ≤ current.length ∨
        MAX_CHARS_PER_REQUEST < current_chars + text.length) then
      batchGo batch_size rest (batches ++ [current]) [idx] text.length
    else
      batchGo batch_size rest batches (current ++ [idx]) (current_chars + text.length)

/-- `batched_indices` from `src/scripts/translate_tsv.py`. -/
def batched_indices (texts : List Str) (batch_size : Nat) : List (List Nat) :=
  batchGo batch_size texts.enum [] [] 0

/-- Outcome of one HTTP POST in `post_with_retry`: the status code and,
for 429 responses, the `Retry-After` header: `none` when the header is
absent or empty (falsy in Python), `some none` when present but
`float()` raises `ValueError`, `some (some q)` when it parses to `q`. -/
structure RetryResp where
  status : Nat
  retryAfter : Option (Option ℚ)

/-- `min(max_delay, base_delay * (2 ** attempt))` with `base_delay = 1.0`
and `max_delay = 15.0`. -/
def backoffDelay (attempt : Nat) : ℚ := min 15 (1 * 2 ^ attempt)

/-- The duration `post_with_retry` sleeps after a 429 on 0-based attempt
`attempt`, given the jitter sampled by `random.uniform(0, 0.5)`: the
parsed `Retry-After` value if the header is present and parseable, else
the exponential backoff — plus the jitter in both cases. -/
def retryDelay (attempt : Nat) (retryAfter : Option (Option ℚ)) (jitter : ℚ) : ℚ :=
  (match retryAfter with
   | some (some v) => v
   | some none => backoffDelay attempt
   | none => backoffDelay attempt) + jitter

/-- The retry loop of `post_with_retry` over the remaining attempts:
returns the payloads POSTed, the durations slept (in order), and either
the index of the attempt whose response was returned or an error for a
raised exception (a non-429 status `≥ 400`, or running out of attempts,
where `raise_for_status` on the last 429 response raises). -/
def postWithRetryGo {α : Type} (payload : α) (resp : Nat → RetryResp) (jitter : Nat → ℚ) :
    Nat → Nat → List α × List ℚ × Except Unit Nat
  | 0, _ => ([], [], .error ())
  | n + 1, attempt =>
    if (resp attempt).status = 429 then
      let out := postWithRetryGo payload resp jitter n (attempt + 1)
      (payload :: out.1,
        retryDelay attempt (resp attempt).retryAfter (jitter attempt) :: out.2.1,
        out.2.2)
    else if (resp attempt).status < 400 then ([payload], [], .ok attempt)
    else ([payload], [], .error ())

/-- `post_with_retry` from `src/scripts/translate_tsv.py`, as a pure
function of the response and jitter at each attempt. -/
def post_with_retry {α : Type} (payload : α) (resp : Nat → RetryResp) (jitter : Nat → ℚ)
    (max_retries : Nat) : List α × List ℚ × Except Unit Nat :=
  postWithRetryGo payload resp jitter max_retries 0

/-- The response handling of `translate_batch`: `data` is the decoded
JSON array, each item modelled by the list of the `text` fields of its
`translations` array (`[]` when the key is absent or the array is empty,
both falsy for `item.get("translations")`).  The `ValueError` raised on
a count mismatch is the error case. -/
def translate_batch (texts : List Str) (data : List (List Str)) : Except Unit (List Str) :=
  if texts = [] then .ok []
  else
    let translations := data.map (fun item => match item with | [] => ([] : Str) | t :: _ => t)
    if translations.length ≠ texts.length then .error () else .ok translations

/-- A TSV row as `csv.DictReader` yields it: an ordered association list
from column name to value. -/
abbrev Row := List (Str × Str)

/-- `row.get(k)`. -/
def lookupRow (r : Row) (k : Str) : Option Str :=
  match r with
  | [] => none
  | (k', v) :: t => if k' = k then some v else lookupRow t k

/-- `row.get(k) or ""`. -/
def getOrEmpty (r : Row) (k : Str) : Str := (lookupRow r k).getD []

/-- `str.strip()`. -/
def pyStrip (s : Str) : Str :=
  ((s.dropWhile Char.isWhitespace).reverse.dropWhile Char.isWhitespace).reverse

/-- `row[k] = v` on a dict: replace the value at the first occurrence of
the key, or append the binding if the key is absent. -/
def updateRow (r : Row) (k v : Str) : Row :=
  match r with
  | [] => [(k, v)]
  | (k', v') :: t => if k' = k then (k, v) :: t else (k', v') :: updateRow t k v

/-- `rows[idx] = f rows[idx]`. -/
def updateAt : List Row → Nat → (Row → Row) → List Row
  | [], _, _ => []
  | r :: t, 0, f => f r :: t
  | r :: t, n + 1, f => r :: updateAt t n f

/-- State of the row-classification loop of `main`. -/
structure ClassifyState where
  skipped : Nat
  eligible : Nat
  idxs : List Nat
  maskedSrcs : List Str
  phLists : List (List Str)

/-- The first loop of `main`: classify each row as skipped or eligible,
masking the eligible source texts. -/
def classifyGo (target : Str) (overwrite : Bool) : List (Nat × Row) → ClassifyState
  | [] => ⟨0, 0, [], [], []⟩
  | (idx, row) :: rest =>
    let st := classifyGo target overwrite rest
    let src := pyStrip (getOrEmpty row "source".data)
    let tgt := pyStrip (getOrEmpty row target)
    if src = [] then
      { st with skipped := st.skipped + 1 }
    else if tgt ≠ [] ∧ overwrite = false then
      { st with skipped := st.skipped + 1 }
    else
      { skipped := st.skipped, eligible := st.eligible + 1,
        idxs := idx :: st.idxs,
        maskedSrcs := (mask_placeholders src).1 :: st.maskedSrcs,
        phLists := (mask_placeholders src).2 :: st.phLists }

/-- The per-item loop over one batch's `zip(batch_indices, batch_masked,
batch_placeholders, batch_translations)`: QA-check, then restore and
write into the target column, or count a QA failure. -/
def processItems (target : Str) :
    List (Nat × Str × List Str × Str) → List Row → Nat → Nat → List Row × Nat × Nat
  | [], rows, translated, qa => (rows, translated, qa)
  | (idx, msrc, phs, mtr) :: rest, rows, translated, qa =>
    if placeholders_match msrc mtr = false then
      processItems target rest rows translated (qa + 1)
    else
      processItems target rest
        (updateAt rows idx (fun r => updateRow r target (restore_placeholders mtr phs)))
        (translated + 1) qa

/-- The batch loop of `main`: `oracle b` is the decoded JSON array
returned by the `b`-th call to the translation service (or an error when
the POST raised).  Any exception aborts the run. -/
def runBatches (oracle : Nat → Except Unit (List (List Str))) (target : Str)
    (idxs : List Nat) (maskedSrcs : List Str) (phLists : List (List Str)) :
    List (List Nat) → Nat → List Row → Nat → Nat → Except Unit (List Row × Nat × Nat)
  | [], _, rows, translated, qa => .ok (rows, translated, qa)
  | batch :: rest, b, rows, translated, qa =>
    let batchIdxs := batch.map (fun i => idxs.getD i 0)
    let batchMasked := batch.map (fun i => maskedSrcs.getD i [])
    let batchPhs := batch.map (fun i => phLists.getD i [])
    match oracle b with
    | .error _ => .error ()
    | .ok data =>
      match translate_batch batchMasked data with
      | .error _ => .error ()
      | .ok translations =>
        match processItems target (batchIdxs.zip (batchMasked.zip (batchPhs.zip translations)))
            rows translated qa with
        | (rows', translated', qa') =>
          runBatches oracle target idxs maskedSrcs phLists rest (b + 1) rows' translated' qa'

/-- `target_column` selection in `main`: `translation` if present, else
`translated`, else a fatal error. -/
def pickTarget (fieldnames : List Str) : Option Str :=
  if "translation".data ∈ fieldnames then some "translation".data
  else if "translated".data ∈ fieldnames then some "translated".data
  else none

/-- The observable outcome of `main`: the exit code, what was written to
the output file (`none` when the run aborts before the write step), and
the counters printed in the summary. -/
structure MainResult where
  exitCode : Nat
  written : Option (List Str × List Row)
  total : Nat
  eligible : Nat
  translated : Nat
  skipped : Nat
  qaFailed : Nat
deriving DecidableEq

/-- `main` from `src/scripts/translate_tsv.py` as a pure function.
`key`/`region` are the environment credentials (`none` when unset; the
empty string is also falsy).  `header` is `reader.fieldnames` (`none`
for a missing header row).  `rows` is the parsed row list, `oracle` the
translation service.  File I/O, argument parsing and the pacing sleep
have no observable effect on the modelled outcome. -/
def mainModel (key region : Option Str) (header : Option (List Str)) (rows : List Row)
    (overwrite : Bool) (batchSize : Nat)
    (oracle : Nat → Except Unit (List (List Str))) : MainResult :=
  if (match key with | none => true | some s => s.isEmpty)
      || (match region with | none => true | some s => s.isEmpty) then
    ⟨1, none, 0, 0, 0, 0, 0⟩
  else
    match header with
    | none => ⟨1, none, 0, 0, 0, 0, 0⟩
    | some fieldnames =>
      if fieldnames = [] then ⟨1, none, 0, 0, 0, 0, 0⟩
      else
        match pickTarget fieldnames with
        | none => ⟨1, none, 0, 0, 0, 0, 0⟩
        | some target =>
          let st := classifyGo target overwrite rows.enum
          match runBatches oracle target st.idxs st.maskedSrcs st.phLists
              (batched_indices st.maskedSrcs batchSize) 0 rows 0 0 with
          | .error _ => ⟨1, none, 0, 0, 0, 0, 0⟩
          | .ok (rows', translated, qa) =>
            ⟨0, some (fieldnames, rows'), rows.length, st.eligible, translated,
              st.skipped, qa⟩

/-! ### Structure of the masking scan -/

theorem parseChunks_nil : parseChunks [] = [] := by
  rw [parseChunks]
  rfl

theorem parseChunks_some {s m rest : Str} (h : tryMatch s = some (m, rest)) :
    parseChunks s = .lit m :: parseChunks rest := by
  rw [parseChunks]
  split
  · next m' rest' hm =>
    rw [h] at hm
    injection hm with hm'
    injection hm' with h1 h2
    rw [h1, h2]
  · next hm =>
    rw [h] at hm
    exact absurd hm (by simp)

theorem parseChunks_none {c : Char} {cs : Str} (h : tryMatch (c :: cs) = none) :
    parseChunks (c :: cs) = .ch c :: parseChunks cs := by
  rw [parseChunks]
  split
  · next m' rest' hm => rw [h] at hm; exact absurd hm (by simp)
  · rfl

theorem maskAux_some {s m rest : Str} (acc : List Str) (h : tryMatch s = some (m, rest)) :
    maskAux s acc = (phToken acc.length ++ (maskAux rest (acc ++ [m])).1,
      (maskAux rest (acc ++ [m])).2) := by
  rw [maskAux]
  split
  · next m' rest' hm =>
    rw [h] at hm
    injection hm with hm'
    injection hm' with h1 h2
    rw [h1, h2]
  · next hm =>
    rw [h] at hm
    exact absurd hm (by simp)

theorem maskAux_nil (acc : List Str) : maskAux [] acc = ([], acc) := by
  rw [maskAux]
  rfl

theorem maskAux_none {c : Char} {cs : Str} (acc : List Str)
    (h : tryMatch (c :: cs) = none) :
    maskAux (c :: cs) acc = (c :: (maskAux cs acc).1, (maskAux cs acc).2) := by
  rw [maskAux]
  split
  · next m' rest' hm => rw [h] at hm; exact absurd hm (by simp)
  · rfl

theorem findPH_nil : findPH [] = [] := by
  rw [findPH]
  rfl

theorem findPH_some {s m rest : Str} (h : matchPH s = some (m, rest)) :
    findPH s = m :: findPH rest := by
  rw [findPH]
  split
  · next m' rest' hm =>
    rw [h] at hm
    injection hm with hm'
    injection hm' with h1 h2
    rw [h1, h2]
  · next hm =>
    rw [h] at hm
    exact absurd hm (by simp)

theorem findPH_none {c : Char} {cs : Str} (h : matchPH (c :: cs) = none) :
    findPH (c :: cs) = findPH cs := by
  rw [findPH]
  split
  · next m' rest' hm => rw [h] at hm; exact absurd hm (by simp)
  · rfl

/-- `maskAux` renders the chunk decomposition, numbering tokens from
`len(acc)` on, and appends the matched literals to `acc`. -/
theorem maskAux_renderR (s : Str) (acc : List Str) :
    maskAux s acc
      = (renderR (parseChunks s) acc.length 0, acc ++ chunkLits (parseChunks s)) := by
  induction s using parseChunks.induct generalizing acc with
  | case1 s m rest hm ih =>
    obtain ⟨hne, heq⟩ := tryMatch_sound hm
    rw [maskAux_some acc hm, parseChunks_some hm, ih]
    simp [renderR, chunkLits]
  | case2 => simp [maskAux_nil, parseChunks_nil, renderR, chunkLits]
  | case3 c cs hm hm' ih =>
    rw [maskAux_none acc hm, parseChunks_none hm, ih]
    simp [renderR, chunkLits]

/-- `mask_placeholders` through the chunk decomposition. -/
theorem mask_placeholders_eq (text : Str) :
    mask_placeholders text
      = (renderR (parseChunks text) 0 0, chunkLits (parseChunks text)) := by
  rw [mask_placeholders, maskAux_renderR]
  simp

/-- The chunks flatten back to the input text. -/
theorem flatChunks_parseChunks (s : Str) : flatChunks (parseChunks s) = s := by
  induction s using parseChunks.induct with
  | case1 s m rest hm ih =>
    obtain ⟨hne, heq⟩ := tryMatch_sound hm
    rw [parseChunks_some hm]
    simp [flatChunks, Chunk.flat] at ih ⊢
    rw [ih, ← heq]
  | case2 => simp [parseChunks_nil, flatChunks]
  | case3 c cs hm hm' ih =>
    rw [parseChunks_none hm]
    simp [flatChunks, Chunk.flat] at ih ⊢
    exact ih
  
/-- Every recorded literal is a non-empty string. -/
theorem chunkLits_ne_nil (s : Str) : ∀ l ∈ chunkLits (parseChunks s), l ≠ [] := by
  induction s using parseChunks.induct with
  | case1 s m rest hm ih =>
    obtain ⟨hne, heq⟩ := tryMatch_sound hm
    rw [parseChunks_some hm]
    intro l hl
    rcases hl with _ | hl
    · exact hne
    · exact ih l (by assumption)
  | case2 => simp [parseChunks_nil, chunkLits]
  | case3 c cs hm hm' ih =>
    rw [parseChunks_none hm]
    exact ih

/-! ### Fuel-based mirrors for kernel evaluation on concrete inputs -/

/-- Fuelled mirror of `natDigits`. -/
def natDigitsF : Nat → Nat → Str
  | 0, _ => []
  | fuel + 1, n =>
    if n < 10 then [digitChar n] else natDigitsF fuel (n / 10) ++ [digitChar (n % 10)]

theorem natDigitsF_eq : ∀ (fuel n : Nat), n < fuel → natDigitsF fuel n = natDigits n := by
  intro fuel
  induction fuel with
  | zero => intro n h; omega
  | succ fuel ih =>
    intro n h
    rw [natDigitsF, natDigits]
    split
    · rfl
    · next h10 =>
      rw [ih (n / 10) (by omega)]

/-- Fuelled mirror of `phToken`. -/
def phTokenF (n : Nat) : Str :=
  '_' :: '_' :: 'P' :: 'H' :: (natDigitsF (n + 1) n ++ ['_', '_'])

theorem phTokenF_eq (n : Nat) : phTokenF n = phToken n := by
  rw [phTokenF, phToken, natDigitsF_eq _ _ (Nat.lt_succ_self n)]

/-- Fuelled mirror of `replaceAll`. -/
def replaceAllF : Nat → Str → Str → Str → Str
  | 0, s, _, _ => s
  | _ + 1, [], _, _ => []
  | fuel + 1, c :: cs, pat, rep =>
    if pat ≠ [] ∧ pat <+: (c :: cs) then
      rep ++ replaceAllF fuel ((c :: cs).drop pat.length) pat rep
    else c :: replaceAllF fuel cs pat rep

theorem replaceAllF_eq : ∀ (fuel : Nat) (s pat rep : Str), s.length < fuel →
    replaceAllF fuel s pat rep = replaceAll s pat rep := by
  intro fuel
  induction fuel with
  | zero => intro s pat rep h; omega
  | succ fuel ih =>
    intro s pat rep h
    match s with
    | [] => rw [replaceAll_nil]; rfl
    | c :: cs =>
      by_cases hc : pat ≠ [] ∧ pat <+: (c :: cs)
      · rw [replaceAllF, if_pos hc, replaceAll, dif_pos hc, ih]
        have hp1 : 0 < pat.length := List.length_pos.mpr hc.1
        simp only [List.length_drop, List.length_cons] at *
        omega
      · rw [replaceAllF, if_neg hc, replaceAll, dif_neg hc, ih]
        simp only [List.length_cons] at h
        omega

/-- Fuelled mirror of `restoreAux`/`restore_placeholders`. -/
def restoreAuxF (toks : List Str) (i : Nat) (text : Str) : Str :=
  match toks with
  | [] => text
  | t :: ts => restoreAuxF ts (i + 1) (replaceAllF (text.length + 1) text (phTokenF i) t)

theorem restoreAuxF_eq : ∀ (toks : List Str) (i : Nat) (text : Str),
    restoreAuxF toks i text = restoreAux toks i text := by
  intro toks
  induction toks with
  | nil => intro i text; rfl
  | cons t ts ih =>
    intro i text
    rw [restoreAuxF, restoreAux, phTokenF_eq,
      replaceAllF_eq _ _ _ _ (Nat.lt_succ_self _), ih]

theorem restore_placeholders_eval (text : Str) (placeholders : List Str) :
    restore_placeholders text placeholders = restoreAuxF placeholders 0 text := by
  rw [restore_placeholders, restoreAuxF_eq]

/-- Fuelled mirror of `maskAux`. -/
def maskAuxF : Nat → Str → List Str → Str × List Str
  | 0, _, acc => ([], acc)
  | _ + 1, [], acc => ([], acc)
  | fuel + 1, c :: cs, acc =>
    match tryMatch (c :: cs) with
    | some (m, rest) =>
      (phTokenF acc.length ++ (maskAuxF fuel rest (acc ++ [m])).1,
        (maskAuxF fuel rest (acc ++ [m])).2)
    | none => (c :: (maskAuxF fuel cs acc).1, (maskAuxF fuel cs acc).2)

theorem maskAuxF_eq : ∀ (fuel : Nat) (s : Str) (acc : List Str), s.length < fuel →
    maskAuxF fuel s acc = maskAux s acc := by
  intro fuel
  induction fuel with
  | zero => intro s acc h; omega
  | succ fuel ih =>
    intro s acc h
    match s with
    | [] => rw [maskAux_nil]; rfl
    | c :: cs =>
      rw [maskAuxF]
      split
      · next m rest hm =>
        obtain ⟨hne, heq⟩ := tryMatch_sound hm
        rw [maskAux_some acc hm, phTokenF_eq, ih]
        have hlen : (c :: cs).length = m.length + rest.length := by
          rw [heq, List.length_append]
        have hm1 : 0 < m.length := List.length_pos.mpr hne
        simp only [List.length_cons] at h hlen
        omega
      · next hm =>
        rw [maskAux_none acc hm, ih]
        simp only [List.length_cons] at h
        omega

theorem mask_placeholders_eval (text : Str) :
    mask_placeholders text = maskAuxF (text.length + 1) text [] := by
  rw [mask_placeholders, maskAuxF_eq _ _ _ (Nat.lt_succ_self _)]

/-- Fuelled mirror of `findPH`. -/
def findPHF : Nat → Str → List Str
  | 0, _ => []
  | _ + 1, [] => []
  | fuel + 1, c :: cs =>
    match matchPH (c :: cs) with
    | some (m, rest) => m :: findPHF fuel rest
    | none => findPHF fuel cs

theorem findPHF_eq : ∀ (fuel : Nat) (s : Str), s.length < fuel →
    findPHF fuel s = findPH s := by
  intro fuel
  induction fuel with
  | zero => intro s h; omega
  | succ fuel ih =>
    intro s h
    match s with
    | [] => rw [findPH_nil]; rfl
    | c :: cs =>
      rw [findPHF]
      split
      · next m rest hm =>
        obtain ⟨hne, heq⟩ := matchPH_sound hm
        rw [findPH_some hm, ih]
        have hlen : (c :: cs).length = m.length + rest.length := by
          rw [heq, List.length_append]
        have hm1 : 0 < m.length := List.length_pos.mpr hne
        simp only [List.length_cons] at h hlen
        omega
      · next hm =>
        rw [findPH_none hm, ih]
        simp only [List.length_cons] at h
        omega

theorem findPH_eval (s : Str) : findPH s = findPHF (s.length + 1) s :=
  (findPHF_eq _ _ (Nat.lt_succ_self _)).symm

theorem placeholders_match_eval (a b : Str) :
    placeholders_match a b
      = decide (findPHF (a.length + 1) a = findPHF (b.length + 1) b) := by
  rw [placeholders_match, findPH_eval, findPH_eval]

/-! ### Properties of `batched_indices` -/

theorem batchGo_flatten (bs : Nat) :
    ∀ (l : List (Nat × Str)) (acc : List (List Nat)) (cur : List Nat) (cc : Nat),
      (batchGo bs l acc cur cc).flatten = acc.flatten ++ cur ++ l.map Prod.fst := by
  intro l
  induction l with
  | nil =>
    intro acc cur cc
    rw [batchGo]
    split
    · next hcur => subst hcur; simp
    · simp
  | cons p rest ih =>
    intro acc cur cc
    obtain ⟨idx, text⟩ := p
    rw [batchGo]
    split
    · rw [ih]
      simp
    · rw [ih]
      simp

theorem batchGo_good (bs : Nat) (f : Nat → Nat) (hbs : 1 ≤ bs) :
    ∀ (l : List (Nat × Str)) (acc : List (List Nat)) (cur : List Nat) (cc : Nat),
      (∀ p ∈ l, f p.1 = p.2.length) →
      (∀ b ∈ acc, b ≠ [] ∧ b.length ≤ bs ∧
        (2 ≤ b.length → (b.map f).sum ≤ MAX_CHARS_PER_REQUEST)) →
      cc = (cur.map f).sum →
      cur.length ≤ bs →
      (2 ≤ cur.length → cc ≤ MAX_CHARS_PER_REQUEST) →
      ∀ b ∈ batchGo bs l acc cur cc,
        b ≠ [] ∧ b.length ≤ bs ∧
          (2 ≤ b.length → (b.map f).sum ≤ MAX_CHARS_PER_REQUEST) := by
  intro l
  induction l with
  | nil =>
    intro acc cur cc _ hacc hsum hlen hcap b hb
    rw [batchGo] at hb
    split at hb
    · exact hacc b hb
    · next hcur =>
      rcases List.mem_append.1 hb with h1 | h1
      · exact hacc b h1
      · simp only [List.mem_singleton] at h1
        subst h1
        exact ⟨hcur, hlen, fun h2 => hsum ▸ hcap h2⟩
  | cons p rest ih =>
    intro acc cur cc hl hacc hsum hlen hcap b hb
    obtain ⟨idx, text⟩ := p
    have hfidx : f idx = text.length := hl (idx, text) (by simp)
    rw [batchGo] at hb
    split at hb
    · next hguard =>
      refine ih _ _ _ (fun q hq => hl q (by simp [hq])) ?_ (by simp [hfidx]) (by simpa using hbs)
        (by intro h2; simp at h2) b hb
      intro b' hb'
      rcases List.mem_append.1 hb' with h1 | h1
      · exact hacc b' h1
      · simp only [List.mem_singleton] at h1
        subst h1
        exact ⟨hguard.1, hlen, fun h2 => hsum ▸ hcap h2⟩
    · next hguard =>
      push_neg at hguard
      refine ih _ _ _ (fun q hq => hl q (by simp [hq])) hacc
        (by simp [hsum, hfidx]) ?_ ?_ b hb
      · rcases List.eq_nil_or_concat cur with hc | hc
        · subst hc; simpa using hbs
        · have := hguard (by rintro rfl; simp at hc)
          simp only [List.length_append, List.length_cons, List.length_nil]
          omega
      · intro h2
        by_cases hc : cur = []
        · subst hc
          simp at h2
        · have := (hguard hc).2
          omega

/-- Claim C3: for every list of texts and every batch size `≥ 1`,
`batched_indices` returns batches whose concatenated indices equal
`0..n-1` in order, no batch has more than `batch_size` items, no batch
with two or more items has cumulative text length exceeding 9000
characters, and a single text longer than 9000 characters is emitted as
a one-item batch. -/
theorem claim_C3 (texts : List Str) (batch_size : Nat) (hbs : 1 ≤ batch_size) :
    (batched_indices texts batch_size).flatten = List.range texts.length
    ∧ (∀ b ∈ batched_indices texts batch_size,
        b ≠ [] ∧ b.length ≤ batch_size ∧
          (2 ≤ b.length →
            (b.map (fun i => (texts.getD i []).length)).sum ≤ MAX_CHARS_PER_REQUEST))
    ∧ (∀ i, i < texts.length →
        MAX_CHARS_PER_REQUEST < (texts.getD i []).length →
        [i] ∈ batched_indices texts batch_size) := by
  have hjoin : (batched_indices texts batch_size).flatten = List.range texts.length := by
    rw [batched_indices, batchGo_flatten]
    simp [List.enum_map_fst]
  have hgood : ∀ b ∈ batched_indices texts batch_size,
      b ≠ [] ∧ b.length ≤ batch_size ∧
        (2 ≤ b.length →
          (b.map (fun i => (texts.getD i []).length)).sum ≤ MAX_CHARS_PER_REQUEST) := by
    refine batchGo_good batch_size _ hbs texts.enum [] [] 0 ?_ (by simp) (by simp)
      (by simp) (by intro h2; simp at h2)
    rw [List.forall_mem_enum]
    intro i hi
    simp [List.getD, List.getElem?_eq_getElem hi]
  refine ⟨hjoin, hgood, ?_⟩
  intro i hi hbig
  have hmem : i ∈ (batched_indices texts batch_size).flatten := by
    rw [hjoin]
    exact List.mem_range.2 hi
  obtain ⟨b, hb, hib⟩ := List.mem_join.1 hmem
  obtain ⟨hbne, hblen, hbsum⟩ := hgood b hb
  rcases Nat.lt_or_ge b.length 2 with hlt | hge
  · have hpos : 0 < b.length := List.length_pos.mpr hbne
    have hb1 : b.length = 1 := by omega
    obtain ⟨x, hx⟩ := List.length_eq_one.1 hb1
    subst hx
    simp only [List.mem_singleton] at hib
    subst hib
    exact hb
  · exfalso
    have hle : (texts.getD i []).length ≤ (b.map (fun j => (texts.getD j []).length)).sum :=
      List.le_sum_of_mem (List.mem_map_of_mem _ hib)
    have := hbsum hge
    omega

/-- Instantiation of `claim_C3` at a concrete input. -/
theorem claim_C3_witness :
    1 ≤ 1
    ∧ ((batched_indices ["ab".data, "c".data] 1).flatten = List.range 2
      ∧ (∀ b ∈ batched_indices ["ab".data, "c".data] 1,
          b ≠ [] ∧ b.length ≤ 1 ∧
            (2 ≤ b.length →
              (b.map (fun i => ((["ab".data, "c".data] : List Str).getD i []).length)).sum
                ≤ MAX_CHARS_PER_REQUEST))
      ∧ (∀ i, i < (["ab".data, "c".data] : List Str).length →
          MAX_CHARS_PER_REQUEST < ((["ab".data, "c".data] : List Str).getD i []).length →
          [i] ∈ batched_indices ["ab".data, "c".data] 1)) :=
  ⟨le_refl 1, by
    have h := claim_C3 ["ab".data, "c".data] 1 (le_refl 1)
    simpa using h⟩

/-- Claim C7: for every non-empty input list of texts, `translate_batch`
either returns a list of translated strings of exactly the same length as
the input, with the empty string substituted at every position where the
response reports no translation, or raises an error when the number of
translations extracted from the response does not equal the number of
input texts. -/
theorem claim_C7 (texts : List Str) (data : List (List Str)) (hne : texts ≠ []) :
    (data.length = texts.length ∧
      ∃ out, translate_batch texts data = .ok out ∧ out.length = texts.length ∧
        ∀ i (hi : i < data.length) (hi' : i < out.length),
          data.get ⟨i, hi⟩ = [] → out.get ⟨i, hi'⟩ = [])
    ∨ (data.length ≠ texts.length ∧ ∃ e, translate_batch texts data = .error e) := by
  rw [translate_batch, if_neg hne]
  by_cases hlen : data.length = texts.length
  · left
    refine ⟨hlen, _, by rw [if_neg (by simpa using hlen)], by simpa using hlen, ?_⟩
    intro i hi hi' hdata
    simp only [List.get_eq_getElem, List.getElem_map]
    rw [List.get_eq_getElem] at hdata
    rw [hdata]
  · right
    exact ⟨hlen, (), by rw [if_pos (by simpa using hlen)]⟩

/-- Instantiation of `claim_C7` at a concrete input. -/
theorem claim_C7_witness :
    ([("a".data : Str)] ≠ []) ∧
      ((([[]] : List (List Str)).length = [("a".data : Str)].length ∧
        ∃ out, translate_batch [("a".data : Str)] [[]] = .ok out ∧
          out.length = [("a".data : Str)].length ∧
          ∀ i (hi : i < ([[]] : List (List Str)).length) (hi' : i < out.length),
            ([[]] : List (List Str)).get ⟨i, hi⟩ = [] → out.get ⟨i, hi'⟩ = [])
      ∨ (([[]] : List (List Str)).length ≠ [("a".data : Str)].length ∧
          ∃ e, translate_batch [("a".data : Str)] [[]] = .error e)) :=
  ⟨by decide, claim_C7 [("a".data : Str)] [[]] (by decide)⟩

/-- Claim C2 (corrected): with a parseable `Retry-After: 2` on a 429
response, the sleep before the retry is `2` **plus** the sampled jitter
from `random.uniform(0, 0.5)` — between 2 and 2.5 seconds — and every
attempt re-POSTs the identical payload. -/
theorem claim_C2 {α : Type} (payload : α) (resp : Nat → RetryResp) (jitter : Nat → ℚ)
    (max_retries : Nat) (hmr : 2 ≤ max_retries)
    (h0 : resp 0 = ⟨429, some (some 2)⟩)
    (hj0 : 0 ≤ jitter 0) (hj1 : jitter 0 ≤ 1 / 2) :
    (post_with_retry payload resp jitter max_retries).2.1.head? = some (2 + jitter 0)
    ∧ 2 ≤ 2 + jitter 0 ∧ 2 + jitter 0 ≤ 5 / 2
    ∧ (∀ q ∈ (post_with_retry payload resp jitter max_retries).1, q = payload)
    ∧ 2 ≤ (post_with_retry payload resp jitter max_retries).1.length := by
  have hall : ∀ (n attempt : Nat) (q : α),
      q ∈ (postWithRetryGo payload resp jitter n attempt).1 → q = payload := by
    intro n
    induction n with
    | zero => intro attempt q hq; simp [postWithRetryGo] at hq
    | succ n ih =>
      intro attempt q hq
      rw [postWithRetryGo] at hq
      split at hq
      · simp only [List.mem_cons] at hq
        rcases hq with h1 | h1
        · exact h1
        · exact ih (attempt + 1) q h1
      · split at hq <;> simpa using hq
  have hlen1 : ∀ (n attempt : Nat), 1 ≤ (postWithRetryGo payload resp jitter (n + 1) attempt).1.length := by
    intro n attempt
    rw [postWithRetryGo]
    split
    · simp
    · split <;> simp
  obtain ⟨k, rfl⟩ : ∃ k, max_retries = k + 2 := ⟨max_retries - 2, by omega⟩
  constructor
  · rw [post_with_retry, postWithRetryGo]
    rw [if_pos (by rw [h0])]
    simp only [List.head?_cons]
    rw [h0, retryDelay]
  refine ⟨by linarith, by linarith, ?_, ?_⟩
  · exact fun q hq => hall _ 0 q hq
  · rw [post_with_retry, postWithRetryGo, if_pos (by rw [h0])]
    have := hlen1 k 1
    simp only [List.length_cons]
    simp
    omega

/-- Instantiation of `claim_C2` at a concrete input. -/
theorem claim_C2_witness :
    (2 ≤ 2 ∧ (fun _ : Nat => RetryResp.mk 429 (some (some 2))) 0 = ⟨429, some (some 2)⟩
      ∧ (0 : ℚ) ≤ (fun _ : Nat => (1 : ℚ) / 4) 0 ∧ (fun _ : Nat => (1 : ℚ) / 4) 0 ≤ 1 / 2)
    ∧ ((post_with_retry () (fun _ => RetryResp.mk 429 (some (some 2)))
          (fun _ => (1 : ℚ) / 4) 2).2.1.head?
        = some (2 + (fun _ : Nat => (1 : ℚ) / 4) 0)
      ∧ 2 ≤ 2 + (fun _ : Nat => (1 : ℚ) / 4) 0
      ∧ 2 + (fun _ : Nat => (1 : ℚ) / 4) 0 ≤ 5 / 2
      ∧ (∀ q ∈ (post_with_retry () (fun _ => RetryResp.mk 429 (some (some 2)))
            (fun _ => (1 : ℚ) / 4) 2).1, q = ())
      ∧ 2 ≤ (post_with_retry () (fun _ => RetryResp.mk 429 (some (some 2)))
            (fun _ => (1 : ℚ) / 4) 2).1.length) :=
  ⟨⟨le_refl 2, rfl, by norm_num, by norm_num⟩,
    claim_C2 () _ _ 2 (le_refl 2) rfl (by norm_num) (by norm_num)⟩

/-- Claim C2 fails as stated: with `Retry-After: 2` parsed and a sampled
jitter of `1/4`, the duration slept before the retry is `9/4` seconds,
not exactly `2`. -/
theorem claim_C2_counterexample :
    (post_with_retry () (fun _ => RetryResp.mk 429 (some (some 2)))
        (fun _ => (1 : ℚ) / 4) 2).2.1.head? = some (9 / 4)
    ∧ ((9 : ℚ) / 4) ≠ 2 := by
  constructor
  · rw [post_with_retry, postWithRetryGo, if_pos rfl]
    simp only [List.head?_cons]
    rw [retryDelay]
    norm_num
  · norm_num

/-! ### `PH_RE` matching lemmas -/

theorem matchPH_none_of_not_pfx {s : Str}
    (h : ¬ (['_', '_', 'P', 'H'] <+: s)) : matchPH s = none := by
  match s with
  | [] => rfl
  | [a] => rfl
  | [a, b] => rfl
  | [a, b, c] => rfl
  | a :: b :: c :: d :: t =>
    rw [matchPH, if_neg]
    rintro ⟨rfl, rfl, rfl, rfl⟩
    exact h ⟨t, rfl⟩

theorem matchPH_phToken (n : Nat) (s : Str) :
    matchPH (phToken n ++ s) = some (phToken n, s) := by
  have hds : (natDigits n ++ '_' :: '_' :: s).takeWhile isDigit09 = natDigits n :=
    takeWhile_all_append isDigit09 '_' ('_' :: s) (natDigits_all_digit n)
      underscore_not_digit
  have hshape : phToken n ++ s
      = '_' :: '_' :: 'P' :: 'H' :: (natDigits n ++ '_' :: '_' :: s) := by
    simp [phToken]
  rw [hshape, matchPH, if_pos ⟨rfl, rfl, rfl, rfl⟩]
  rw [hds]
  rw [if_neg (by simpa using natDigits_ne_nil n)]
  rw [List.drop_left]
  show (if '_' = '_' ∧ '_' = '_' then
      some ('_' :: '_' :: 'P' :: 'H' :: (natDigits n ++ ['_', '_']), s) else none)
    = some (phToken n, s)
  rw [if_pos ⟨rfl, rfl⟩]
  simp [phToken]

/-- `phToken` is injective. -/
theorem phToken_injective {m n : Nat} (h : phToken m = phToken n) : m = n :=
  phToken_prefix_eq (r := []) (by rw [h, List.append_nil])

/-- A sequence of mask tokens separated by single spaces; used to state
that the placeholder-sequence check accepts exactly equal sequences. -/
def sepBySpace : List Nat → Str
  | [] => []
  | [n] => phToken n
  | n :: ns => phToken n ++ ' ' :: sepBySpace ns

theorem findPH_sepBySpace (ns : List Nat) :
    findPH (sepBySpace ns) = ns.map phToken := by
  induction ns with
  | nil => simp [sepBySpace, findPH_nil]
  | cons n ns ih =>
    match ns with
    | [] =>
      rw [show sepBySpace [n] = phToken n ++ [] by simp [sepBySpace]]
      rw [findPH_some (matchPH_phToken n []), findPH_nil]
      rfl
    | m :: ns' =>
      rw [show sepBySpace (n :: m :: ns')
          = phToken n ++ ' ' :: sepBySpace (m :: ns') from rfl]
      rw [findPH_some (matchPH_phToken n _)]
      rw [findPH_none (matchPH_none_of_not_pfx (by
        rw [cons_prefix_iff]
        rintro ⟨h1, -⟩
        exact absurd h1 (by decide)))]
      rw [ih]
      rfl

/-- Claim C5: `placeholders_match` returns true iff the ordered sequences
of `__PH{digits}__` matches extracted from the two strings are identical;
in particular, on strings that are space-separated sequences of mask
tokens it accepts exactly equal token sequences, so any reordering,
insertion, deletion or duplication of a token makes it return false. -/
theorem claim_C5 :
    (∀ a b : Str, placeholders_match a b = true ↔ findPH a = findPH b)
    ∧ (∀ ns ms : List Nat,
        placeholders_match (sepBySpace ns) (sepBySpace ms) = true ↔ ns = ms) := by
  have h1 : ∀ a b : Str, placeholders_match a b = true ↔ findPH a = findPH b := by
    intro a b
    rw [placeholders_match]
    exact decide_eq_true_iff
  refine ⟨h1, ?_⟩
  intro ns ms
  rw [h1, findPH_sepBySpace, findPH_sepBySpace]
  constructor
  · intro h
    exact List.map_injective_iff.2 (fun x y hxy => phToken_injective hxy) h
  · intro h
    rw [h]

/-! ### Substring occurrence predicate -/

/-- `pat in s` for Python strings: some contiguous occurrence exists. -/
def hasSubstr (s pat : Str) : Bool :=
  match s with
  | [] => decide (pat = [])
  | c :: cs => pat.isPrefixOf (c :: cs) || hasSubstr cs pat

theorem hasSubstr_iff (s pat : Str) :
    hasSubstr s pat = true ↔ ∃ a b, s = a ++ pat ++ b := by
  induction s with
  | nil =>
    simp only [hasSubstr, decide_eq_true_iff]
    constructor
    · rintro rfl
      exact ⟨[], [], rfl⟩
    · rintro ⟨a, b, hab⟩
      rcases pat with _ | ⟨p, ps⟩
      · rfl
      · have := congrArg List.length hab
        simp at this
        omega
  | cons c cs ih =>
    simp only [hasSubstr, Bool.or_eq_true, List.isPrefixOf_iff_prefix, ih]
    constructor
    · rintro (⟨b, hb⟩ | ⟨a, b, hab⟩)
      · exact ⟨[], b, by rw [← hb]; rfl⟩
      · exact ⟨c :: a, b, by rw [hab]; rfl⟩
    · rintro ⟨a, b, hab⟩
      rcases a with _ | ⟨x, a'⟩
      · left
        exact ⟨b, by rw [hab]; simp⟩
      · right
        injection hab with h1 h2
        exact ⟨a', b, h2⟩

theorem hasSubstr_true_intro {s pat a b : Str} (h : s = a ++ pat ++ b) :
    hasSubstr s pat = true :=
  (hasSubstr_iff s pat).2 ⟨a, b, h⟩

theorem hasSubstr_false_no_occ {s pat : Str} (h : hasSubstr s pat = false)
    {a b : Str} (hs : s = a ++ pat ++ b) : False := by
  rw [hasSubstr_true_intro hs] at h
  exact absurd h (by simp)

theorem hasSubstr_false_of_append_right {x y pat : Str}
    (h : hasSubstr (x ++ y) pat = false) : hasSubstr y pat = false := by
  rcases hy : hasSubstr y pat with _ | _
  · rfl
  · obtain ⟨a, b, hab⟩ := (hasSubstr_iff y pat).1 hy
    exact absurd (@hasSubstr_true_intro (x ++ y) pat (x ++ a) b
      (by rw [hab]; simp)) (by rw [h]; simp)

theorem hasSubstr_false_of_cons {c : Char} {s pat : Str}
    (h : hasSubstr (c :: s) pat = false) : hasSubstr s pat = false :=
  hasSubstr_false_of_append_right (x := [c]) h

/-! ### Chunk rendering lemmas -/

theorem flatChunks_nil : flatChunks [] = [] := rfl

theorem flatChunks_cons (c : Chunk) (t : List Chunk) :
    flatChunks (c :: t) = c.flat ++ flatChunks t := by
  simp [flatChunks]

/-- A non-underscore head of a render is a head of the original text. -/
theorem render_head_flat {t : List Chunk} {k i : Nat} {c : Char} {r : Str}
    (hne : ∀ l ∈ chunkLits t, l ≠ [])
    (h : renderR t k i = c :: r) (hc : c ≠ '_') :
    ∃ r', flatChunks t = c :: r' := by
  match t with
  | [] => simp [renderR] at h
  | .ch c' :: t' =>
    rw [renderR] at h
    injection h with h1 _
    subst h1
    exact ⟨flatChunks t', by rw [flatChunks_cons]; rfl⟩
  | .lit l :: t' =>
    rw [renderR] at h
    by_cases hk : k < i
    · rw [if_pos hk] at h
      have hl : l ≠ [] := hne l (by simp [chunkLits])
      match l with
      | x :: l'' =>
        injection h with h1 _
        subst h1
        exact ⟨l'' ++ flatChunks t', by rw [flatChunks_cons]; rfl⟩
    · rw [if_neg hk] at h
      rw [phToken] at h
      injection h with h1 _
      exact absurd h1.symm hc

theorem chunkLits_cons_lit (l : Str) (t : List Chunk) :
    chunkLits (.lit l :: t) = l :: chunkLits t := rfl

theorem chunkLits_cons_ch (c : Char) (t : List Chunk) :
    chunkLits (.ch c :: t) = chunkLits t := rfl

/-- In an all-token render, a `PH` prefix can only come from text. -/
theorem c10_PH {t : List Chunk} {k : Nat}
    (hne : ∀ l ∈ chunkLits t, l ≠ [])
    (h : ['P', 'H'] <+: renderR t k 0) :
    ∃ r, flatChunks t = 'P' :: 'H' :: r := by
  match t with
  | [] => simp [renderR, List.prefix_nil] at h
  | .ch c :: t' =>
    rw [renderR, cons_prefix_iff] at h
    obtain ⟨h1, h2⟩ := h
    subst h1
    rcases hR : renderR t' k 0 with _ | ⟨c2, r2⟩
    · rw [hR] at h2
      simp [List.prefix_nil] at h2
    · rw [hR, cons_prefix_iff] at h2
      obtain ⟨h3, -⟩ := h2
      obtain ⟨r', hr'⟩ := render_head_flat (t := t') (fun l hl => hne l hl) hR
        (by rw [← h3]; decide)
      rw [← h3] at hr'
      exact ⟨r', by rw [flatChunks_cons, hr']; rfl⟩
  | .lit l :: t' =>
    rw [renderR, if_neg (by omega)] at h
    rw [phToken] at h
    rw [List.cons_append, cons_prefix_iff] at h
    exact absurd h.1 (by decide)

/-- In an all-token render, a `_PH` prefix can only come from text. -/
theorem c10_UPH {t : List Chunk} {k : Nat}
    (hne : ∀ l ∈ chunkLits t, l ≠ [])
    (h : ['_', 'P', 'H'] <+: renderR t k 0) :
    ∃ r, flatChunks t = '_' :: 'P' :: 'H' :: r := by
  match t with
  | [] => simp [renderR, List.prefix_nil] at h
  | .ch c :: t' =>
    rw [renderR, cons_prefix_iff] at h
    obtain ⟨h1, h2⟩ := h
    subst h1
    obtain ⟨r, hr⟩ := c10_PH (t := t') (fun l hl => hne l hl) h2
    exact ⟨r, by rw [flatChunks_cons, hr]; rfl⟩
  | .lit l :: t' =>
    rw [renderR, if_neg (by omega)] at h
    rw [phToken] at h
    rw [List.cons_append, cons_prefix_iff, List.cons_append, cons_prefix_iff] at h
    exact absurd h.2.1 (by decide)

/-- `PH_RE.findall` on an all-token render: exactly the inserted tokens,
in numbering order. -/
theorem findPH_render0 :
    ∀ (chunks : List Chunk) (k : Nat),
      hasSubstr (flatChunks chunks) ['_', '_', 'P', 'H'] = false →
      (∀ l ∈ chunkLits chunks, l ≠ []) →
      findPH (renderR chunks k 0)
        = List.map phToken (List.range' k (chunkLits chunks).length) := by
  intro chunks
  induction chunks with
  | nil => intro k _ _; simp [renderR, findPH_nil, chunkLits]
  | cons chunk t ih =>
    intro k hno hne
    match chunk with
    | .lit l =>
      rw [show renderR (.lit l :: t) k 0 = phToken k ++ renderR t (k + 1) 0 by
        rw [renderR, if_neg (by omega)]]
      rw [findPH_some (matchPH_phToken k _)]
      rw [ih (k + 1)
        (hasSubstr_false_of_append_right (by rw [← flatChunks_cons]; exact hno))
        (fun l' hl' => hne l' (by rw [chunkLits_cons_lit]; exact List.mem_cons_of_mem _ hl'))]
      rw [chunkLits_cons_lit]
      simp [List.range']
    | .ch c =>
      rw [show renderR (.ch c :: t) k 0 = c :: renderR t k 0 from rfl]
      have hnone : matchPH (c :: renderR t k 0) = none := by
        apply matchPH_none_of_not_pfx
        intro hp
        rw [cons_prefix_iff] at hp
        obtain ⟨h1, hp2⟩ := hp
        obtain ⟨r, hr⟩ := c10_UPH (t := t) hne hp2
        refine hasSubstr_false_no_occ hno (a := []) (b := r) ?_
        rw [flatChunks_cons, hr, ← h1]
        rfl
      rw [findPH_none hnone]
      exact ih k (hasSubstr_false_of_cons
        (show hasSubstr (c :: flatChunks t) _ = false from hno)) hne

/-- Claim C10 (amended): for every input text that contains no occurrence
of the four-character substring `__PH`, the masked output's ordered
sequence of `PH_RE` matches is exactly `__PH0__ ... __PH{n-1}__` where
`n` is the length of the returned token list. -/
theorem claim_C10 (text : Str)
    (h : hasSubstr text ['_', '_', 'P', 'H'] = false) :
    findPH (mask_placeholders text).1
      = List.map phToken (List.range (mask_placeholders text).2.length) := by
  rw [mask_placeholders_eq]
  rw [findPH_render0 (parseChunks text) 0
    (by rw [flatChunks_parseChunks]; exact h) (chunkLits_ne_nil text)]
  rw [List.range_eq_range']

/-- Instantiation of `claim_C10` at a concrete input. -/
theorem claim_C10_witness :
    hasSubstr "a {x} <b> %s".data ['_', '_', 'P', 'H'] = false
    ∧ findPH (mask_placeholders "a {x} <b> %s".data).1
        = List.map phToken (List.range (mask_placeholders "a {x} <b> %s".data).2.length) :=
  ⟨by decide, claim_C10 _ (by decide)⟩

/-- Claim C10 fails as stated: the text `__PH1{x}` contains no substring
matching `__PH\d+__` (`PH_RE.findall` returns nothing on it), yet the
masked output's token sequence is `[__PH1__]`, not `[__PH0__]`. -/
theorem claim_C10_counterexample :
    findPH "__PH1{x}".data = []
    ∧ findPH (mask_placeholders "__PH1{x}".data).1
        ≠ List.map phToken (List.range (mask_placeholders "__PH1{x}".data).2.length) := by
  constructor
  · rw [findPH_eval]
    decide
  · rw [mask_placeholders_eval, findPH_eval]
    intro hcon
    rw [show List.range (maskAuxF ("__PH1{x}".data.length + 1) "__PH1{x}".data []).2.length
        = [0] by decide] at hcon
    simp only [List.map] at hcon
    rw [← phTokenF_eq] at hcon
    revert hcon
    decide

/-! ### Occurrence analysis for the restore round trip -/

/-- In a partially-restored render of a `PH`-free text, no position within
leading extra text `b` (itself `PH`-free together with the text) can start
a `PH` pair. -/
theorem not_PH_mid :
    ∀ (t : List Chunk) (b : Str) (k i : Nat),
      hasSubstr (b ++ flatChunks t) ['P', 'H'] = false →
      (∀ l ∈ chunkLits t, l ≠ []) →
      ¬ (['P', 'H'] <+: b ++ renderR t k i) := by
  intro t
  induction t with
  | nil =>
    intro b k i hno _ hp
    rw [show renderR [] k i = [] from rfl, List.append_nil] at hp
    obtain ⟨rest, hrest⟩ := hp
    exact hasSubstr_false_no_occ hno (a := []) (b := rest)
      (by rw [← hrest]; simp [flatChunks])
  | cons chunk t' ih =>
    intro b k i hno hne hp
    rcases b with _ | ⟨x, b'⟩
    · rw [List.nil_append] at hp hno
      rcases chunk with c | l
      · refine ih [c] k i ?_ (fun l hl => hne l hl) hp
        rw [flatChunks_cons] at hno
        exact hno
      · by_cases hk : k < i
        · refine ih l (k + 1) i ?_ ?_ ?_
          · rw [flatChunks_cons] at hno
            exact hno
          · intro l' hl'
            exact hne l' (by rw [chunkLits_cons_lit]; exact List.mem_cons_of_mem _ hl')
          · rw [renderR, if_pos hk] at hp
            simpa using hp
        · rw [renderR, if_neg hk, phToken, List.cons_append, cons_prefix_iff] at hp
          exact absurd hp.1 (by decide)
    · rw [List.cons_append, cons_prefix_iff] at hp
      obtain ⟨hx, hp2⟩ := hp
      rcases b' with _ | ⟨y, b''⟩
      · rcases hR : renderR (chunk :: t') k i with _ | ⟨c2, r2⟩
        · rw [List.nil_append, hR] at hp2
          simp [List.prefix_nil] at hp2
        · rw [List.nil_append, hR, cons_prefix_iff] at hp2
          obtain ⟨hc2, -⟩ := hp2
          obtain ⟨r', hr'⟩ := render_head_flat (t := chunk :: t') hne hR
            (by rw [← hc2]; decide)
          exact hasSubstr_false_no_occ hno (a := []) (b := r')
            (by rw [List.cons_append, List.nil_append, hr', ← hx, ← hc2]; rfl)
      · rw [List.cons_append, cons_prefix_iff] at hp2
        obtain ⟨hy, -⟩ := hp2
        exact hasSubstr_false_no_occ hno (a := [])
          (b := b'' ++ flatChunks (chunk :: t'))
          (by rw [← hx, ← hy]; simp)

/-- Same as `not_PH_mid` for the three-character prefix `_PH`. -/
theorem not_UPH_mid :
    ∀ (t : List Chunk) (b : Str) (k i : Nat),
      hasSubstr (b ++ flatChunks t) ['P', 'H'] = false →
      (∀ l ∈ chunkLits t, l ≠ []) →
      ¬ (['_', 'P', 'H'] <+: b ++ renderR t k i) := by
  intro t
  induction t with
  | nil =>
    intro b k i hno hne hp
    rw [show renderR [] k i = [] from rfl, List.append_nil] at hp
    obtain ⟨rest, hrest⟩ := hp
    exact hasSubstr_false_no_occ hno (a := ['_']) (b := rest ++ flatChunks [])
      (by rw [← hrest]; simp [flatChunks])
  | cons chunk t' ih =>
    intro b k i hno hne hp
    rcases b with _ | ⟨x, b'⟩
    · rw [List.nil_append] at hp hno
      rcases chunk with c | l
      · rw [show renderR (.ch c :: t') k i = c :: renderR t' k i from rfl,
          cons_prefix_iff] at hp
        obtain ⟨-, hp2⟩ := hp
        refine not_PH_mid t' [] k i ?_ (fun l hl => hne l hl) (by simpa using hp2)
        rw [flatChunks_cons] at hno
        simpa using hasSubstr_false_of_append_right hno
      · by_cases hk : k < i
        · refine ih l (k + 1) i ?_ ?_ ?_
          · rw [flatChunks_cons] at hno
            exact hno
          · intro l' hl'
            exact hne l' (by rw [chunkLits_cons_lit]; exact List.mem_cons_of_mem _ hl')
          · rw [renderR, if_pos hk] at hp
            simpa using hp
        · rw [renderR, if_neg hk, phToken, List.cons_append, cons_prefix_iff,
            List.cons_append, cons_prefix_iff] at hp
          exact absurd hp.2.1 (by decide)
    · rw [List.cons_append, cons_prefix_iff] at hp
      obtain ⟨hx, hp2⟩ := hp
      refine not_PH_mid (chunk :: t') b' k i ?_ hne hp2
      exact hasSubstr_false_of_cons (c := x) hno

/-- Scanning `str.replace` through a prefix with no pattern occurrence. -/
theorem replaceAll_append_left {pat rep : Str} :
    ∀ (l tail : Str),
      (∀ a b, l = a ++ b → b ≠ [] → ¬ (pat <+: b ++ tail)) →
      replaceAll (l ++ tail) pat rep = l ++ replaceAll tail pat rep := by
  intro l
  induction l with
  | nil => intro tail _; simp
  | cons c l' ih =>
    intro tail hno
    rw [List.cons_append, replaceAll_neg c (l' ++ tail) rep ?_]
    · rw [ih tail (fun a b hab hb => hno (c :: a) b (by rw [hab]; rfl) hb)]
      rfl
    · intro hp
      exact hno [] (c :: l') rfl (by simp) (by simpa using hp)

/-- `str.replace` consumes a pattern occurrence at the start. -/
theorem replaceAll_prefix_match {pat rep : Str} (hpat : pat ≠ []) (s : Str) :
    replaceAll (pat ++ s) pat rep = rep ++ replaceAll s pat rep := by
  rcases pat with _ | ⟨p, ps⟩
  · exact absurd rfl hpat
  · rw [List.cons_append, replaceAll_pos p (ps ++ s) rep hpat ⟨s, rfl⟩]
    congr 1
    rw [show (p :: (ps ++ s)) = (p :: ps) ++ s from rfl, List.drop_left]

/-- Splitting a suffix of an all-digit run followed by `__`. -/
theorem digits_suffix_split :
    ∀ (ds a b : Str), (∀ c ∈ ds, isDigit09 c = true) → a ++ b = ds ++ ['_', '_'] →
      b = [] ∨ b = ['_'] ∨ b = ['_', '_'] ∨ ∃ d b', b = d :: b' ∧ isDigit09 d = true := by
  intro ds
  induction ds with
  | nil =>
    intro a b _ hab
    simp only [List.nil_append] at hab
    rcases a with _ | ⟨x, a'⟩
    · right; right; left
      exact hab
    · injection hab with h1 h2
      rcases a' with _ | ⟨y, a''⟩
      · right; left
        exact h2
      · injection h2 with h3 h4
        left
        exact (List.append_eq_nil.1 h4).2
  | cons d ds' ih =>
    intro a b hall hab
    rcases a with _ | ⟨x, a'⟩
    · right; right; right
      refine ⟨d, ds' ++ ['_', '_'], ?_, hall d (by simp)⟩
      exact hab
    · injection hab with h1 h2
      exact ih a' b (fun c hc => hall c (by simp [hc])) h2

/-- No occurrence of `__PH{i}__` starts strictly inside (or at) a token
`__PH{k}__` with `k ≠ i`, given that the following render has no `PH` or
`_PH` prefix. -/
theorem phToken_suffix_no_pat {i k : Nat} (hik : i ≠ k) {R a b : Str}
    (heq : a ++ b = phToken k) (hb : b ≠ [])
    (hR2 : ¬ (['P', 'H'] <+: R)) (hR3 : ¬ (['_', 'P', 'H'] <+: R)) :
    ¬ (phToken i <+: b ++ R) := by
  intro hp
  rcases a with _ | ⟨x1, a1⟩
  · simp only [List.nil_append] at heq
    subst heq
    exact hik (phToken_prefix_eq hp)
  · rw [phToken] at heq
    injection heq with hx1 heq1
    rcases a1 with _ | ⟨x2, a2⟩
    · replace heq1 : b = '_' :: 'P' :: 'H' :: (natDigits k ++ ['_', '_']) := heq1
      subst heq1
      rw [phToken, List.cons_append, cons_prefix_iff, List.cons_append,
        cons_prefix_iff] at hp
      exact absurd hp.2.1 (by decide)
    · injection heq1 with hx2 heq2
      rcases a2 with _ | ⟨x3, a3⟩
      · replace heq2 : b = 'P' :: 'H' :: (natDigits k ++ ['_', '_']) := heq2
        subst heq2
        rw [phToken, List.cons_append, cons_prefix_iff] at hp
        exact absurd hp.1 (by decide)
      · injection heq2 with hx3 heq3
        rcases a3 with _ | ⟨x4, a4⟩
        · replace heq3 : b = 'H' :: (natDigits k ++ ['_', '_']) := heq3
          subst heq3
          rw [phToken, List.cons_append, cons_prefix_iff] at hp
          exact absurd hp.1 (by decide)
        · injection heq3 with hx4 heq4
          rcases digits_suffix_split (natDigits k) a4 b (natDigits_all_digit k) heq4
            with h0 | h1 | h2 | ⟨d, b', hb', hd⟩
          · exact hb h0
          · subst h1
            rw [phToken, List.cons_append, cons_prefix_iff] at hp
            refine hR3 (List.IsPrefix.trans ?_ hp.2)
            exact ⟨natDigits i ++ ['_', '_'], rfl⟩
          · subst h2
            rw [phToken, List.cons_append, cons_prefix_iff, List.cons_append,
              cons_prefix_iff] at hp
            refine hR2 (List.IsPrefix.trans ?_ hp.2.2)
            exact ⟨natDigits i ++ ['_', '_'], rfl⟩
          · subst hb'
            rw [phToken, List.cons_append, cons_prefix_iff] at hp
            rw [← hp.1] at hd
            rw [underscore_not_digit] at hd
            exact absurd hd (by simp)

/-- Replacing `__PH{i}__` leaves a render untouched when every token still
present carries an index `> i`. -/
theorem replaceAll_render_high {i : Nat} (rep : Str) :
    ∀ (chunks : List Chunk) (k : Nat), i < k →
      hasSubstr (flatChunks chunks) ['P', 'H'] = false →
      (∀ l ∈ chunkLits chunks, l ≠ []) →
      replaceAll (renderR chunks k i) (phToken i) rep = renderR chunks k i := by
  intro chunks
  induction chunks with
  | nil =>
    intro k _ _ _
    rw [show renderR [] k i = [] from rfl, replaceAll_nil]
  | cons chunk t ih =>
    intro k hik hno hne
    rcases chunk with c | l
    · rw [show renderR (.ch c :: t) k i = c :: renderR t k i from rfl]
      rw [replaceAll_neg c (renderR t k i) rep ?_]
      · rw [ih k hik (by rw [flatChunks_cons] at hno; exact hasSubstr_false_of_append_right hno)
          (fun l hl => hne l hl)]
      · intro hp
        rw [phToken, cons_prefix_iff] at hp
        obtain ⟨-, hp2⟩ := hp
        refine not_UPH_mid t [] k i ?_ (fun l hl => hne l hl) ?_
        · rw [flatChunks_cons] at hno
          simpa using hasSubstr_false_of_append_right hno
        · exact List.IsPrefix.trans ⟨natDigits i ++ ['_', '_'], rfl⟩ (by simpa using hp2)
    · have hk : ¬ (k < i) := by omega
      have hnoT : hasSubstr (flatChunks t) ['P', 'H'] = false := by
        rw [flatChunks_cons] at hno
        exact hasSubstr_false_of_append_right hno
      have hneT : ∀ l' ∈ chunkLits t, l' ≠ [] :=
        fun l' hl' => hne l' (by rw [chunkLits_cons_lit]; exact List.mem_cons_of_mem _ hl')
      rw [show renderR (.lit l :: t) k i = phToken k ++ renderR t (k + 1) i by
        rw [renderR, if_neg hk]]
      rw [replaceAll_append_left (phToken k) _ ?_]
      · rw [ih (k + 1) (by omega) hnoT hneT]
      · intro a b hab hb
        exact phToken_suffix_no_pat (by omega) hab.symm hb
          (by simpa using not_PH_mid t [] (k + 1) i (by simpa using hnoT) hneT)
          (by simpa using not_UPH_mid t [] (k + 1) i (by simpa using hnoT) hneT)

/-- Rendering is insensitive to the restored-count bound below the least
token index present. -/
theorem renderR_high {i : Nat} :
    ∀ (chunks : List Chunk) (k : Nat), i < k →
      renderR chunks k i = renderR chunks k (i + 1) := by
  intro chunks
  induction chunks with
  | nil => intro k _; rfl
  | cons chunk t ih =>
    intro k hik
    rcases chunk with c | l
    · rw [show renderR (.ch c :: t) k i = c :: renderR t k i from rfl,
        show renderR (.ch c :: t) k (i + 1) = c :: renderR t k (i + 1) from rfl,
        ih k hik]
    · rw [renderR, renderR, if_neg (by omega), if_neg (by omega), ih (k + 1) (by omega)]

/-- Once every token index is below the restored-count bound, the render
is the original text. -/
theorem renderR_all_lit :
    ∀ (chunks : List Chunk) (k i : Nat),
      k + (chunkLits chunks).length ≤ i → renderR chunks k i = flatChunks chunks := by
  intro chunks
  induction chunks with
  | nil => intro k i _; rfl
  | cons chunk t ih =>
    intro k i hle
    rcases chunk with c | l
    · rw [show renderR (.ch c :: t) k i = c :: renderR t k i from rfl, flatChunks_cons]
      rw [ih k i (by rw [chunkLits_cons_ch] at hle; exact hle)]
      rfl
    · rw [chunkLits_cons_lit, List.length_cons] at hle
      rw [renderR, if_pos (by omega), flatChunks_cons]
      rw [ih (k + 1) i (by omega)]
      rfl

/-- One restore step: replacing `__PH{i}__` by the `i`-th recorded literal
turns the i-th render into the (i+1)-th. -/
theorem replaceAll_render_step {i : Nat} :
    ∀ (chunks : List Chunk) (k : Nat) (r : Str), k ≤ i →
      hasSubstr (flatChunks chunks) ['P', 'H'] = false →
      (∀ l ∈ chunkLits chunks, l ≠ []) →
      (chunkLits chunks).getD (i - k) [] = r →
      replaceAll (renderR chunks k i) (phToken i) r = renderR chunks k (i + 1) := by
  intro chunks
  induction chunks with
  | nil =>
    intro k r _ _ _ _
    rw [show renderR [] k i = [] from rfl, replaceAll_nil]
    rfl
  | cons chunk t ih =>
    intro k r hki hno hne hr
    have hnoT : hasSubstr (flatChunks t) ['P', 'H'] = false := by
      rw [flatChunks_cons] at hno
      exact hasSubstr_false_of_append_right hno
    have hneT : ∀ l' ∈ chunkLits t, l' ≠ [] := by
      intro l' hl'
      refine hne l' ?_
      rcases chunk with c | l
      · rw [chunkLits_cons_ch]; exact hl'
      · rw [chunkLits_cons_lit]; exact List.mem_cons_of_mem _ hl'
    rcases chunk with c | l
    · rw [show renderR (.ch c :: t) k i = c :: renderR t k i from rfl,
        show renderR (.ch c :: t) k (i + 1) = c :: renderR t k (i + 1) from rfl]
      rw [replaceAll_neg c (renderR t k i) r ?_]
      · rw [ih k r hki hnoT hneT (by rw [chunkLits_cons_ch] at hr; exact hr)]
      · intro hp
        rw [phToken, cons_prefix_iff] at hp
        obtain ⟨-, hp2⟩ := hp
        refine not_UPH_mid t [] k i ?_ hneT ?_
        · simpa using hnoT
        · exact List.IsPrefix.trans ⟨natDigits i ++ ['_', '_'], rfl⟩ (by simpa using hp2)
    · rcases Nat.lt_or_ge k i with hk | hk
      · rw [renderR, if_pos hk, renderR, if_pos (by omega)]
        rw [replaceAll_append_left l _ ?_]
        · rw [ih (k + 1) r (by omega) hnoT hneT ?_]
          rw [chunkLits_cons_lit] at hr
          rw [show i - k = (i - (k + 1)) + 1 by omega] at hr
          rw [List.getD_cons_succ] at hr
          exact hr
        · intro a b hab hb hp
          rcases b with _ | ⟨x, b''⟩
          · exact hb rfl
          · rw [phToken, List.cons_append, cons_prefix_iff] at hp
            obtain ⟨-, hp2⟩ := hp
            refine not_UPH_mid t b'' (k + 1) i ?_ hneT ?_
            · have : l ++ flatChunks t = (a ++ [x]) ++ (b'' ++ flatChunks t) := by
                rw [hab]; simp
              rw [flatChunks_cons] at hno
              exact hasSubstr_false_of_append_right (by rw [← this]; exact hno)
            · exact List.IsPrefix.trans ⟨natDigits i ++ ['_', '_'], rfl⟩ hp2
      · have hk' : k = i := by omega
        subst hk'
        rw [renderR, if_neg (by omega), renderR, if_pos (by omega)]
        rw [replaceAll_prefix_match (phToken_ne_nil k) _]
        rw [replaceAll_render_high r t (k + 1) (by omega) hnoT hneT]
        rw [renderR_high t (k + 1) (by omega)]
        rw [chunkLits_cons_lit] at hr
        rw [show k - k = 0 by omega] at hr
        rw [List.getD_cons_zero] at hr
        rw [hr]

theorem drop_eq_cons_getD :
    ∀ (l : List Str) (i : Nat) (t : Str) (ts : List Str),
      l.drop i = t :: ts → l.getD i [] = t := by
  intro l
  induction l with
  | nil => intro i t ts h; simp at h
  | cons x l' ih =>
    intro i t ts h
    rcases i with _ | n
    · simp only [List.drop_zero] at h
      rw [h]
      exact List.getD_cons_zero
    · rw [List.drop_succ_cons] at h
      rw [List.getD_cons_succ]
      exact ih n t ts h

/-- Folding the enumerated replacements over the masked render restores
the remaining tokens in order. -/
theorem restoreAux_render (chunks : List Chunk)
    (hno : hasSubstr (flatChunks chunks) ['P', 'H'] = false)
    (hne : ∀ l ∈ chunkLits chunks, l ≠ []) :
    ∀ (tks : List Str) (i : Nat), (chunkLits chunks).drop i = tks →
      restoreAux tks i (renderR chunks 0 i) = renderR chunks 0 (i + tks.length) := by
  intro tks
  induction tks with
  | nil =>
    intro i _
    rw [restoreAux]
    simp
  | cons t ts ih =>
    intro i hdrop
    rw [restoreAux]
    have hgetD : (chunkLits chunks).getD i [] = t := drop_eq_cons_getD _ _ _ _ hdrop
    rw [replaceAll_render_step chunks 0 t (by omega) hno hne
      (by rw [show i - 0 = i from rfl]; exact hgetD)]
    have hdrop' : (chunkLits chunks).drop (i + 1) = ts := by
      have h1 : (chunkLits chunks).drop (i + 1) = ((chunkLits chunks).drop i).drop 1 := by
        rw [List.drop_drop]
      rw [h1, hdrop]
      rfl
    rw [ih (i + 1) hdrop']
    rw [List.length_cons, show i + 1 + ts.length = i + (ts.length + 1) by omega]

/-- Claim C1 (amended): for every input text that contains no occurrence
of the two-character substring `PH`, restoring the masked form produced
by `mask_placeholders` with its own recorded token list returns the
original input text. -/
theorem claim_C1 (text : Str) (h : hasSubstr text ['P', 'H'] = false) :
    restore_placeholders (mask_placeholders text).1 (mask_placeholders text).2
      = text := by
  rw [mask_placeholders_eq, restore_placeholders]
  have hno : hasSubstr (flatChunks (parseChunks text)) ['P', 'H'] = false := by
    rw [flatChunks_parseChunks]
    exact h
  have hne := chunkLits_ne_nil text
  have hfold := restoreAux_render (parseChunks text) hno hne
    (chunkLits (parseChunks text)) 0 (by rw [List.drop_zero])
  rw [hfold]
  rw [renderR_all_lit _ _ _ (by omega)]
  exact flatChunks_parseChunks text

/-- Instantiation of `claim_C1` at a concrete input. -/
theorem claim_C1_witness :
    hasSubstr "Hello %s, see {name} and <b>!".data ['P', 'H'] = false
    ∧ restore_placeholders (mask_placeholders "Hello %s, see {name} and <b>!".data).1
        (mask_placeholders "Hello %s, see {name} and <b>!".data).2
      = "Hello %s, see {name} and <b>!".data :=
  ⟨by decide, claim_C1 _ (by decide)⟩

/-- Claim C1 fails as stated: on the input `__PH0__{x}` masking yields
`__PH0____PH0__` with token list `[{x}]`, and restoring replaces both
occurrences of `__PH0__`, producing `{x}{x}`, not the original text.
The round trip fails even on texts containing no `__PH` substring at
all: `{a}{b}PH0__x` masks to `__PH0____PH1__PH0__x`, whose tail
`__`&`PH0__x` forms a spurious `__PH0__` occurrence, and restoring
yields `{a}__PH1{a}x` — so a correct precondition must exclude the
two-character substring `PH` itself. -/
theorem claim_C1_counterexample :
    (restore_placeholders (mask_placeholders "__PH0__{x}".data).1
        (mask_placeholders "__PH0__{x}".data).2
      ≠ "__PH0__{x}".data)
    ∧ hasSubstr "{a}{b}PH0__x".data ['_', '_', 'P', 'H'] = false
    ∧ (restore_placeholders (mask_placeholders "{a}{b}PH0__x".data).1
        (mask_placeholders "{a}{b}PH0__x".data).2
      ≠ "{a}{b}PH0__x".data) := by
  refine ⟨?_, by decide, ?_⟩
  · rw [mask_placeholders_eval, restore_placeholders_eval]
    decide
  · rw [mask_placeholders_eval, restore_placeholders_eval]
    decide

/-! ### Claim C4: spec-side description of the masking scan -/

theorem flag_not_alpha {c : Char} (h : isFlagChar c = true) : isAlphaC c = false := by
  rw [isFlagChar] at h
  simp only [Bool.or_eq_true, beq_iff_eq] at h
  have hval : ¬ ('a' ≤ c ∧ c ≤ 'z') ∧ ¬ ('A' ≤ c ∧ c ≤ 'Z') := by
    rcases h with (((h | h) | h) | h) | h
    · subst h; exact ⟨by decide, by decide⟩
    · subst h; exact ⟨by decide, by decide⟩
    · rw [isDigit09, Bool.and_eq_true, decide_eq_true_iff, decide_eq_true_iff] at h
      constructor
      · rintro ⟨h1, -⟩
        exact absurd (le_trans h1 h.2) (by decide)
      · rintro ⟨h1, -⟩
        exact absurd (le_trans h1 h.2) (by decide)
    · subst h; exact ⟨by decide, by decide⟩
    · subst h; exact ⟨by decide, by decide⟩
  rw [isAlphaC]
  obtain ⟨h1, h2⟩ := hval
  simp only [Bool.or_eq_false_iff, Bool.and_eq_false_iff, decide_eq_false_iff_not]
  constructor
  · by_cases ha : 'a' ≤ c
    · right; intro hz; exact h1 ⟨ha, hz⟩
    · left; exact ha
  · by_cases ha : 'A' ≤ c
    · right; intro hz; exact h2 ⟨ha, hz⟩
    · left; exact ha

theorem alpha_not_flag {c : Char} (h : isAlphaC c = true) : isFlagChar c = false := by
  rcases hf : isFlagChar c with _ | _
  · rfl
  · rw [flag_not_alpha hf] at h
    exact absurd h (by simp)

/-- Spec wording, class 1: a two-character escape sequence `\n` or `\t`. -/
def EscapeAt (s m rest : Str) : Prop :=
  (m = ['\\', 'n'] ∨ m = ['\\', 't']) ∧ s = m ++ rest

/-- Spec wording, class 2: a percent-prefixed uppercase macro token
`%[A-Z][A-Z0-9_]+` (greedy, so the run is maximal). -/
def MacroAt (s m rest : Str) : Prop :=
  ∃ c ds, isUpperAZ c = true ∧ ds ≠ [] ∧ (∀ x ∈ ds, isMacroChar x = true) ∧
    m = '%' :: c :: ds ∧ s = m ++ rest ∧
    (∀ x rest', rest = x :: rest' → isMacroChar x = false)

/-- Spec wording, class 3: a printf-style token `%` plus
flags/width/precision plus a letter. -/
def PrintfAt (s m rest : Str) : Prop :=
  ∃ fl c, (∀ x ∈ fl, isFlagChar x = true) ∧ isAlphaC c = true ∧
    m = '%' :: (fl ++ [c]) ∧ s = m ++ rest

/-- Spec wording, class 4: a brace-delimited token, non-greedy, no nested
braces. -/
def BraceAt (s m rest : Str) : Prop :=
  ∃ body, body ≠ [] ∧ (∀ x ∈ body, x ≠ '}') ∧ m = '{' :: (body ++ ['}']) ∧
    s = m ++ rest

/-- Spec wording, class 5: an angle-bracket token, non-greedy. -/
def AngleAt (s m rest : Str) : Prop :=
  ∃ body, body ≠ [] ∧ (∀ x ∈ body, x ≠ '>') ∧ m = '<' :: (body ++ ['>']) ∧
    s = m ++ rest

/-- Spec wording: when overlapping candidates exist at the same position,
the class chosen follows the priority order escape, macro, printf, brace,
angle. -/
def PriorityMatchAt (s m rest : Str) : Prop :=
  EscapeAt s m rest
  ∨ ((¬ ∃ m' r', EscapeAt s m' r') ∧ MacroAt s m rest)
  ∨ ((¬ ∃ m' r', EscapeAt s m' r') ∧ (¬ ∃ m' r', MacroAt s m' r') ∧ PrintfAt s m rest)
  ∨ ((¬ ∃ m' r', EscapeAt s m' r') ∧ (¬ ∃ m' r', MacroAt s m' r') ∧
      (¬ ∃ m' r', PrintfAt s m' r') ∧ BraceAt s m rest)
  ∨ ((¬ ∃ m' r', EscapeAt s m' r') ∧ (¬ ∃ m' r', MacroAt s m' r') ∧
      (¬ ∃ m' r', PrintfAt s m' r') ∧ (¬ ∃ m' r', BraceAt s m' r') ∧ AngleAt s m rest)

/-- Spec wording: no pattern class matches at this position. -/
def NoClassAt (s : Str) : Prop :=
  ¬ ∃ m rest, EscapeAt s m rest ∨ MacroAt s m rest ∨ PrintfAt s m rest ∨
    BraceAt s m rest ∨ AngleAt s m rest

/-- Spec wording of the whole masking scan (claim C4): the text decomposes
left-to-right into unmatched characters and non-overlapping matches taken
by class priority; the `n`-th match (zero-based) is replaced by the token
`__PH{n}__` and its literal matched substring is stored at position `n`
of the token list. -/
inductive MaskSpec : Str → Nat → Str → List Str → Prop
  | nil (n : Nat) : MaskSpec [] n [] []
  | raw (n : Nat) (c : Char) (s masked : Str) (toks : List Str) :
      NoClassAt (c :: s) → MaskSpec s n masked toks →
      MaskSpec (c :: s) n (c :: masked) toks
  | tok (n : Nat) (s m rest masked : Str) (toks : List Str) :
      PriorityMatchAt s m rest → MaskSpec rest (n + 1) masked toks →
      MaskSpec s n (phToken n ++ masked) (m :: toks)

theorem tryEscape_iff {s m rest : Str} :
    tryEscape s = some (m, rest) ↔ EscapeAt s m rest := by
  constructor
  · intro h
    match s with
    | [] => simp [tryEscape] at h
    | [a] => simp [tryEscape] at h
    | a :: b :: t =>
      rw [tryEscape] at h
      split at h
      · next hc =>
        injection h with h'
        injection h' with h1 h2
        subst h1 h2
        obtain ⟨rfl, hb⟩ := hc
        rcases hb with rfl | rfl
        · exact ⟨Or.inl rfl, rfl⟩
        · exact ⟨Or.inr rfl, rfl⟩
      · exact absurd h (by simp)
  · rintro ⟨hm, rfl⟩
    rcases hm with rfl | rfl
    · rfl
    · rfl

theorem tryMacroTok_iff {s m rest : Str} :
    tryMacroTok s = some (m, rest) ↔ MacroAt s m rest := by
  constructor
  · intro h
    match s with
    | [] => simp [tryMacroTok] at h
    | [a] => simp [tryMacroTok] at h
    | a :: b :: t =>
      rw [tryMacroTok] at h
      split at h
      · next hc =>
        obtain ⟨rfl, hb⟩ := hc
        split at h
        · exact absurd h (by simp)
        · next hrun =>
          injection h with h'
          injection h' with h1 h2
          subst h1 h2
          refine ⟨b, t.takeWhile isMacroChar, hb, hrun, ?_, rfl, ?_, ?_⟩
          · exact fun x hx => List.mem_takeWhile_imp hx
          · simp only [List.cons_append, List.cons.injEq, true_and]
            exact (takeWhile_append_drop isMacroChar t).symm
          · intro x rest' hx
            exact drop_takeWhile_head isMacroChar t hx
      · exact absurd h (by simp)
  · rintro ⟨c, ds, hupper, hne, hall, rfl, rfl, hmax⟩
    have htw : ((ds ++ rest).takeWhile isMacroChar) = ds := by
      rcases rest with _ | ⟨y, ys⟩
      · rw [List.append_nil]
        exact List.takeWhile_eq_self_iff.mpr hall
      · exact takeWhile_all_append isMacroChar y ys hall (hmax y ys rfl)
    rw [show ('%' :: c :: ds) ++ rest = '%' :: c :: (ds ++ rest) from rfl]
    rw [tryMacroTok, if_pos ⟨rfl, hupper⟩, htw, if_neg (by simpa using hne),
      List.drop_left]

theorem tryPrintfTok_iff {s m rest : Str} :
    tryPrintfTok s = some (m, rest) ↔ PrintfAt s m rest := by
  constructor
  · intro h
    match s with
    | [] => simp [tryPrintfTok] at h
    | a :: t =>
      rw [tryPrintfTok] at h
      split at h
      · next ha =>
        subst ha
        split at h
        · next c rest' heq =>
          split at h
          · next hc =>
            injection h with h'
            injection h' with h1 h2
            subst h1 h2
            refine ⟨t.takeWhile isFlagChar, c, ?_, hc, rfl, ?_⟩
            · exact fun x hx => List.mem_takeWhile_imp hx
            · have := takeWhile_append_drop isFlagChar t
              rw [heq] at this
              simp only [List.cons_append, List.cons.injEq, true_and]
              rw [List.append_assoc]
              simpa using this.symm
          · exact absurd h (by simp)
        · exact absurd h (by simp)
      · exact absurd h (by simp)
  · rintro ⟨fl, c, hall, hc, rfl, rfl⟩
    have htw : ((fl ++ c :: rest).takeWhile isFlagChar) = fl :=
      takeWhile_all_append isFlagChar c rest hall (alpha_not_flag hc)
    have hshape : ('%' :: (fl ++ [c])) ++ rest = '%' :: (fl ++ c :: rest) := by
      simp
    rw [hshape, tryPrintfTok]
    rw [if_pos rfl]
    rw [htw, List.drop_left]
    show (if isAlphaC c = true then some ('%' :: fl ++ [c], rest) else none)
      = some ('%' :: (fl ++ [c]), rest)
    rw [if_pos hc]
    simp

theorem tryBraceTok_iff {s m rest : Str} :
    tryBraceTok s = some (m, rest) ↔ BraceAt s m rest := by
  constructor
  · intro h
    match s with
    | [] => simp [tryBraceTok] at h
    | a :: t =>
      rw [tryBraceTok] at h
      split at h
      · next ha =>
        subst ha
        split at h
        · exact absurd h (by simp)
        · next hbody =>
          split at h
          · next c rest' heq =>
            split at h
            · next hc =>
              subst hc
              injection h with h'
              injection h' with h1 h2
              subst h1 h2
              refine ⟨t.takeWhile (fun x => !(x == '}')), hbody, ?_, rfl, ?_⟩
              · intro x hx
                have := List.mem_takeWhile_imp hx
                simpa using this
              · have := takeWhile_append_drop (fun x => !(x == '}')) t
                rw [heq] at this
                simp only [List.cons_append, List.cons.injEq, true_and]
                rw [List.append_assoc]
                simpa using this.symm
            · exact absurd h (by simp)
          · exact absurd h (by simp)
      · exact absurd h (by simp)
  · rintro ⟨body, hne, hall, rfl, rfl⟩
    have htw : ((body ++ '}' :: rest).takeWhile (fun x => !(x == '}'))) = body :=
      takeWhile_all_append _ '}' rest (fun x hx => by simpa using hall x hx) (by simp)
    have hshape : ('{' :: (body ++ ['}'])) ++ rest = '{' :: (body ++ '}' :: rest) := by
      simp
    rw [hshape, tryBraceTok]
    rw [if_pos rfl, htw, if_neg (by simpa using hne), List.drop_left]
    show (if '}' = '}' then some ('{' :: body ++ ['}'], rest) else none)
      = some ('{' :: (body ++ ['}']), rest)
    rw [if_pos rfl]
    simp

theorem tryAngleTok_iff {s m rest : Str} :
    tryAngleTok s = some (m, rest) ↔ AngleAt s m rest := by
  constructor
  · intro h
    match s with
    | [] => simp [tryAngleTok] at h
    | a :: t =>
      rw [tryAngleTok] at h
      split at h
      · next ha =>
        subst ha
        split at h
        · exact absurd h (by simp)
        · next hbody =>
          split at h
          · next c rest' heq =>
            split at h
            · next hc =>
              subst hc
              injection h with h'
              injection h' with h1 h2
              subst h1 h2
              refine ⟨t.takeWhile (fun x => !(x == '>')), hbody, ?_, rfl, ?_⟩
              · intro x hx
                have := List.mem_takeWhile_imp hx
                simpa using this
              · have := takeWhile_append_drop (fun x => !(x == '>')) t
                rw [heq] at this
                simp only [List.cons_append, List.cons.injEq, true_and]
                rw [List.append_assoc]
                simpa using this.symm
            · exact absurd h (by simp)
          · exact absurd h (by simp)
      · exact absurd h (by simp)
  · rintro ⟨body, hne, hall, rfl, rfl⟩
    have htw : ((body ++ '>' :: rest).takeWhile (fun x => !(x == '>'))) = body :=
      takeWhile_all_append _ '>' rest (fun x hx => by simpa using hall x hx) (by simp)
    have hshape : ('<' :: (body ++ ['>'])) ++ rest = '<' :: (body ++ '>' :: rest) := by
      simp
    rw [hshape, tryAngleTok]
    rw [if_pos rfl, htw, if_neg (by simpa using hne), List.drop_left]
    show (if '>' = '>' then some ('<' :: body ++ ['>'], rest) else none)
      = some ('<' :: (body ++ ['>']), rest)
    rw [if_pos rfl]
    simp

theorem tryMatch_priority {s m rest : Str} (h : tryMatch s = some (m, rest)) :
    PriorityMatchAt s m rest := by
  rw [tryMatch] at h
  split at h
  · next h1 =>
    injection h with h'
    subst h'
    exact Or.inl (tryEscape_iff.1 h1)
  · next hesc =>
    have hne : ¬ ∃ m' r', EscapeAt s m' r' := by
      rintro ⟨m', r', hE⟩
      rw [← tryEscape_iff] at hE
      rw [hE] at hesc
      exact absurd hesc (by simp)
    split at h
    · next h1 =>
      injection h with h'
      subst h'
      exact Or.inr (Or.inl ⟨hne, tryMacroTok_iff.1 h1⟩)
    · next hmac =>
      have hnm : ¬ ∃ m' r', MacroAt s m' r' := by
        rintro ⟨m', r', hM⟩
        rw [← tryMacroTok_iff] at hM
        rw [hM] at hmac
        exact absurd hmac (by simp)
      split at h
      · next h1 =>
        injection h with h'
        subst h'
        exact Or.inr (Or.inr (Or.inl ⟨hne, hnm, tryPrintfTok_iff.1 h1⟩))
      · next hpr =>
        have hnp : ¬ ∃ m' r', PrintfAt s m' r' := by
          rintro ⟨m', r', hP⟩
          rw [← tryPrintfTok_iff] at hP
          rw [hP] at hpr
          exact absurd hpr (by simp)
        split at h
        · next h1 =>
          injection h with h'
          subst h'
          exact Or.inr (Or.inr (Or.inr (Or.inl ⟨hne, hnm, hnp, tryBraceTok_iff.1 h1⟩)))
        · next hbr =>
          have hnb : ¬ ∃ m' r', BraceAt s m' r' := by
            rintro ⟨m', r', hB⟩
            rw [← tryBraceTok_iff] at hB
            rw [hB] at hbr
            exact absurd hbr (by simp)
          exact Or.inr (Or.inr (Or.inr (Or.inr ⟨hne, hnm, hnp, hnb, tryAngleTok_iff.1 h⟩)))

theorem tryMatch_none_noClass {s : Str} (h : tryMatch s = none) : NoClassAt s := by
  rw [tryMatch] at h
  rintro ⟨m, rest, hc⟩
  split at h
  · exact absurd h (by simp)
  · next hesc =>
    split at h
    · exact absurd h (by simp)
    · next hmac =>
      split at h
      · exact absurd h (by simp)
      · next hpr =>
        split at h
        · exact absurd h (by simp)
        · next hbr =>
          rcases hc with hE | hM | hP | hB | hA
          · rw [← tryEscape_iff] at hE
            rw [hE] at hesc
            exact absurd hesc (by simp)
          · rw [← tryMacroTok_iff] at hM
            rw [hM] at hmac
            exact absurd hmac (by simp)
          · rw [← tryPrintfTok_iff] at hP
            rw [hP] at hpr
            exact absurd hpr (by simp)
          · rw [← tryBraceTok_iff] at hB
            rw [hB] at hbr
            exact absurd hbr (by simp)
          · rw [← tryAngleTok_iff] at hA
            rw [hA] at h
            exact absurd h (by simp)

/-- The masked render of the chunk decomposition satisfies the spec-side
description, numbering tokens from `n`. -/
theorem maskSpec_render (s : Str) :
    ∀ n, MaskSpec s n (renderR (parseChunks s) n 0) (chunkLits (parseChunks s)) := by
  induction s using parseChunks.induct with
  | case1 s m rest hm ih =>
    intro n
    rw [parseChunks_some hm]
    rw [show renderR (.lit m :: parseChunks rest) n 0
        = phToken n ++ renderR (parseChunks rest) (n + 1) 0 by
      rw [renderR, if_neg (by omega)]]
    rw [chunkLits_cons_lit]
    exact MaskSpec.tok n s m rest _ _ (tryMatch_priority hm) (ih (n + 1))
  | case2 =>
    intro n
    rw [parseChunks_nil]
    exact MaskSpec.nil n
  | case3 c cs hm hm' ih =>
    intro n
    rw [parseChunks_none hm]
    rw [show renderR (.ch c :: parseChunks cs) n 0
        = c :: renderR (parseChunks cs) n 0 from rfl]
    rw [chunkLits_cons_ch]
    exact MaskSpec.raw n c cs _ _ (tryMatch_none_noClass hm) (ih n)

/-- Claim C4: `mask_placeholders` replaces all non-overlapping matches of
the five placeholder pattern classes left-to-right, the `i`-th match
(zero-based) being replaced by `__PH{i}__` and its literal matched
substring stored at position `i` of the returned token list, the class
chosen at each position following the priority order escape sequences,
percent-macro tokens, printf tokens, brace tokens, angle-bracket
tokens. -/
theorem claim_C4 (text : Str) :
    MaskSpec text 0 (mask_placeholders text).1 (mask_placeholders text).2 := by
  rw [mask_placeholders_eq]
  exact maskSpec_render text 0

/-! ### Frame properties of the orchestrator (C6) -/

/-- `rows'` differs from `rows` at most in the `target` column: same
number of rows, all other columns unchanged. -/
def RowFrame (target : Str) (rows rows' : List Row) : Prop :=
  rows'.length = rows.length ∧
  ∀ (i : Nat) (k : Str), k ≠ target →
    lookupRow (rows'.getD i []) k = lookupRow (rows.getD i []) k

theorem rowFrame_refl (target : Str) (rows : List Row) : RowFrame target rows rows :=
  ⟨rfl, fun _ _ _ => rfl⟩

theorem rowFrame_trans {target : Str} {a b c : List Row}
    (h1 : RowFrame target a b) (h2 : RowFrame target b c) : RowFrame target a c :=
  ⟨h2.1.trans h1.1, fun i k hk => (h2.2 i k hk).trans (h1.2 i k hk)⟩

theorem lookupRow_updateRow_ne (r : Row) (k v k' : Str) (h : k' ≠ k) :
    lookupRow (updateRow r k v) k' = lookupRow r k' := by
  induction r with
  | nil =>
    show lookupRow [(k, v)] k' = lookupRow [] k'
    rw [show lookupRow [(k, v)] k' = if k = k' then some v else lookupRow [] k' from rfl,
      if_neg (fun he => h he.symm)]
  | cons p t ih =>
    obtain ⟨k2, v2⟩ := p
    show lookupRow (if k2 = k then (k, v) :: t else (k2, v2) :: updateRow t k v) k'
      = lookupRow ((k2, v2) :: t) k'
    split
    · next he =>
      subst he
      show (if k2 = k' then some v else lookupRow t k')
        = (if k2 = k' then some v2 else lookupRow t k')
      rw [if_neg (fun he2 => h (he2.symm)), if_neg (fun he2 => h (he2.symm))]
    · next he =>
      show (if k2 = k' then some v2 else lookupRow (updateRow t k v) k')
        = (if k2 = k' then some v2 else lookupRow t k')
      split
      · rfl
      · exact ih

theorem updateAt_length (rows : List Row) (idx : Nat) (f : Row → Row) :
    (updateAt rows idx f).length = rows.length := by
  induction rows generalizing idx with
  | nil => rfl
  | cons r t ih =>
    cases idx with
    | zero => rfl
    | succ m =>
      show (updateAt t m f).length + 1 = t.length + 1
      rw [ih]

theorem lookupRow_getD_updateAt (target : Str) (rows : List Row) (idx : Nat) (v : Str)
    (i : Nat) (k : Str) (h : k ≠ target) :
    lookupRow ((updateAt rows idx (fun r => updateRow r target v)).getD i []) k
      = lookupRow (rows.getD i []) k := by
  induction rows generalizing idx i with
  | nil => rfl
  | cons r t ih =>
    cases idx with
    | zero =>
      cases i with
      | zero =>
        show lookupRow (updateRow r target v) k = lookupRow r k
        exact lookupRow_updateRow_ne r target v k h
      | succ j => rfl
    | succ m =>
      cases i with
      | zero => rfl
      | succ j => exact ih m j

theorem rowFrame_updateAt (target : Str) (rows : List Row) (idx : Nat) (v : Str) :
    RowFrame target rows (updateAt rows idx (fun r => updateRow r target v)) :=
  ⟨updateAt_length rows idx _, fun i k hk => lookupRow_getD_updateAt target rows idx v i k hk⟩

theorem processItems_frame (target : Str) :
    ∀ (items : List (Nat × Str × List Str × Str)) (rows : List Row) (tr qa : Nat),
      RowFrame target rows (processItems target items rows tr qa).1 := by
  intro items
  induction items with
  | nil => intro rows tr qa; exact rowFrame_refl target rows
  | cons it rest ih =>
    intro rows tr qa
    obtain ⟨idx, msrc, phs, mtr⟩ := it
    show RowFrame target rows
      ((if placeholders_match msrc mtr = false then
          processItems target rest rows tr (qa + 1)
        else processItems target rest
          (updateAt rows idx (fun r => updateRow r target (restore_placeholders mtr phs)))
          (tr + 1) qa)).1
    split
    · exact ih rows tr (qa + 1)
    · exact rowFrame_trans (rowFrame_updateAt target rows idx _) (ih _ _ _)

theorem runBatches_frame (oracle : Nat → Except Unit (List (List Str))) (target : Str)
    (idxs : List Nat) (maskedSrcs : List Str) (phLists : List (List Str)) :
    ∀ (batches : List (List Nat)) (b : Nat) (rows : List Row) (tr qa : Nat)
      (out : List Row × Nat × Nat),
      runBatches oracle target idxs maskedSrcs phLists batches b rows tr qa = .ok out →
      RowFrame target rows out.1 := by
  intro batches
  induction batches with
  | nil =>
    intro b rows tr qa out h
    rw [show runBatches oracle target idxs maskedSrcs phLists [] b rows tr qa
        = .ok (rows, tr, qa) from rfl] at h
    injection h with h'
    rw [← h']
    exact rowFrame_refl target rows
  | cons batch rest ih =>
    intro b rows tr qa out h
    have hunf : runBatches oracle target idxs maskedSrcs phLists (batch :: rest) b rows tr qa
        = match oracle b with
          | .error _ => .error ()
          | .ok data =>
            match translate_batch (batch.map (fun i => maskedSrcs.getD i [])) data with
            | .error _ => .error ()
            | .ok translations =>
              match processItems target
                  ((batch.map (fun i => idxs.getD i 0)).zip
                    ((batch.map (fun i => maskedSrcs.getD i [])).zip
                      ((batch.map (fun i => phLists.getD i [])).zip translations)))
                  rows tr qa with
              | (rows', translated', qa') =>
                runBatches oracle target idxs maskedSrcs phLists rest (b + 1)
                  rows' translated' qa' := rfl
    rw [hunf] at h
    split at h
    · exact absurd h (by simp)
    · split at h
      · exact absurd h (by simp)
      · next translations _ =>
        rcases hp : processItems target
            ((batch.map (fun i => idxs.getD i 0)).zip
              ((batch.map (fun i => maskedSrcs.getD i [])).zip
                ((batch.map (fun i => phLists.getD i [])).zip translations)))
            rows tr qa with ⟨rows', tr', qa'⟩
        rw [hp] at h
        have h1 : RowFrame target rows rows' := by
          have h2 := processItems_frame target
            ((batch.map (fun i => idxs.getD i 0)).zip
              ((batch.map (fun i => maskedSrcs.getD i [])).zip
                ((batch.map (fun i => phLists.getD i [])).zip translations)))
            rows tr qa
          rw [hp] at h2
          exact h2
        exact rowFrame_trans h1 (ih (b + 1) rows' tr' qa' out h)

theorem mainModel_frame (key region : Option Str) (header : Option (List Str))
    (rows : List Row) (overwrite : Bool) (batchSize : Nat)
    (oracle : Nat → Except Unit (List (List Str))) (fns : List Str) (rows' : List Row)
    (target : Str)
    (h : (mainModel key region header rows overwrite batchSize oracle).written
      = some (fns, rows'))
    (hp : pickTarget fns = some target) :
    RowFrame target rows rows' := by
  rw [mainModel.eq_def] at h
  split at h
  · simp at h
  · split at h
    · simp at h
    · next fieldnames =>
      split at h
      · simp at h
      · split at h
        · simp at h
        · next tgt hpt =>
          simp only [] at h
          split at h
          · simp at h
          · next rows2 tr2 qa2 hrb =>
            simp only at h
            injection h with h1
            injection h1 with h2 h3
            subst h2
            subst h3
            rw [hpt] at hp
            injection hp with h4
            subst h4
            exact runBatches_frame _ _ _ _ _ _ _ _ _ _ _ hrb

/-- Claim C6: a returned translation that fails the placeholder-sequence
check against its masked source is counted as QA-failed and the row list
is left untouched at that step (so the row's target column keeps its
pre-run value); and whenever `main` writes output, the written rows are
as many as the input rows and agree with them on every column other than
the target column. -/
theorem claim_C6 :
    (∀ (target : Str) (idx : Nat) (msrc : Str) (phs : List Str) (mtr : Str)
       (rest : List (Nat × Str × List Str × Str)) (rows : List Row) (tr qa : Nat),
       placeholders_match msrc mtr = false →
       processItems target ((idx, msrc, phs, mtr) :: rest) rows tr qa
         = processItems target rest rows tr (qa + 1))
    ∧
    (∀ (key region : Option Str) (header : Option (List Str)) (rows : List Row)
       (overwrite : Bool) (batchSize : Nat)
       (oracle : Nat → Except Unit (List (List Str)))
       (fns : List Str) (rows' : List Row) (target : Str),
       (mainModel key region header rows overwrite batchSize oracle).written
         = some (fns, rows') →
       pickTarget fns = some target →
       rows'.length = rows.length ∧
       ∀ (i : Nat) (k : Str), k ≠ target →
         lookupRow (rows'.getD i []) k = lookupRow (rows.getD i []) k) := by
  constructor
  · intro target idx msrc phs mtr rest rows tr qa h
    show (if placeholders_match msrc mtr = false then
        processItems target rest rows tr (qa + 1)
      else processItems target rest
        (updateAt rows idx (fun r => updateRow r target (restore_placeholders mtr phs)))
        (tr + 1) qa) = processItems target rest rows tr (qa + 1)
    rw [if_pos h]
  · intro key region header rows overwrite batchSize oracle fns rows' target h hp
    exact mainModel_frame key region header rows overwrite batchSize oracle fns rows'
      target h hp

theorem claim_C6_witness :
    (placeholders_match "Hi __PH0__".data "Hi".data = false ∧
     processItems "translation".data
        [(0, "Hi __PH0__".data, ["%s".data], "Hi".data)]
        [[("source".data, "Hi %s".data)]] 0 0
       = processItems "translation".data [] [[("source".data, "Hi %s".data)]] 0 1)
    ∧ ((mainModel (some "k".data) (some "r".data)
          (some ["source".data, "translation".data]) [] false 8
          (fun _ => Except.ok [])).written
         = some (["source".data, "translation".data], ([] : List Row)) ∧
       pickTarget ["source".data, "translation".data] = some "translation".data ∧
       ([] : List Row).length = ([] : List Row).length) := by
  have hpm : placeholders_match "Hi __PH0__".data "Hi".data = false := by
    rw [placeholders_match_eval]
    decide
  have hw : (mainModel (some "k".data) (some "r".data)
      (some ["source".data, "translation".data]) [] false 8
      (fun _ => Except.ok [])).written
      = some (["source".data, "translation".data], ([] : List Row)) := by rfl
  have hp : pickTarget ["source".data, "translation".data]
      = some "translation".data := by rfl
  exact ⟨⟨hpm, claim_C6.1 "translation".data 0 "Hi __PH0__".data ["%s".data] "Hi".data
      [] [[("source".data, "Hi %s".data)]] 0 0 hpm⟩,
    hw, hp, (claim_C6.2 (some "k".data) (some "r".data)
      (some ["source".data, "translation".data]) [] false 8 (fun _ => Except.ok [])
      ["source".data, "translation".data] [] "translation".data hw hp).1⟩

/-- Claim C8: the exit code of `main` is 0 or 1; it is 0 exactly when the
run reaches the final write step (output written); and it is 1 exactly
when credentials are missing or empty, the header row is missing or
empty, the required target column is absent, or some batch-level
translation call fails — in every such case nothing is written. -/
theorem claim_C8 (key region : Option Str) (header : Option (List Str)) (rows : List Row)
    (overwrite : Bool) (batchSize : Nat) (oracle : Nat → Except Unit (List (List Str))) :
    ((mainModel key region header rows overwrite batchSize oracle).exitCode = 0 ∨
     (mainModel key region header rows overwrite batchSize oracle).exitCode = 1) ∧
    ((mainModel key region header rows overwrite batchSize oracle).exitCode = 0 ↔
      ∃ w, (mainModel key region header rows overwrite batchSize oracle).written = some w) ∧
    ((mainModel key region header rows overwrite batchSize oracle).exitCode = 1 ↔
      ((match key with | none => true | some s => s.isEmpty)
        || (match region with | none => true | some s => s.isEmpty)) = true
      ∨ header = none
      ∨ header = some []
      ∨ (∃ fieldnames, header = some fieldnames ∧ pickTarget fieldnames = none)
      ∨ (∃ fieldnames target, header = some fieldnames ∧ fieldnames ≠ [] ∧
          pickTarget fieldnames = some target ∧
          runBatches oracle target (classifyGo target overwrite rows.enum).idxs
            (classifyGo target overwrite rows.enum).maskedSrcs
            (classifyGo target overwrite rows.enum).phLists
            (batched_indices (classifyGo target overwrite rows.enum).maskedSrcs batchSize)
            0 rows 0 0 = .error ())) := by
  rw [mainModel.eq_def]
  split
  · next hcred =>
    exact ⟨Or.inr rfl, ⟨fun h0 => absurd h0 (by simp), fun hw => absurd hw (by simp)⟩,
      ⟨fun _ => Or.inl hcred, fun _ => rfl⟩⟩
  · next hcred =>
    split
    · exact ⟨Or.inr rfl, ⟨fun h0 => absurd h0 (by simp), fun hw => absurd hw (by simp)⟩,
        ⟨fun _ => Or.inr (Or.inl rfl), fun _ => rfl⟩⟩
    · next fieldnames =>
      split
      · next hfe =>
        subst hfe
        exact ⟨Or.inr rfl, ⟨fun h0 => absurd h0 (by simp), fun hw => absurd hw (by simp)⟩,
          ⟨fun _ => Or.inr (Or.inr (Or.inl rfl)), fun _ => rfl⟩⟩
      · next hfe =>
        split
        · next heq =>
          exact ⟨Or.inr rfl, ⟨fun h0 => absurd h0 (by simp), fun hw => absurd hw (by simp)⟩,
            ⟨fun _ => Or.inr (Or.inr (Or.inr (Or.inl ⟨fieldnames, rfl, heq⟩))),
             fun _ => rfl⟩⟩
        · next tgt heq =>
          simp only []
          split
          · next e heq2 =>
            exact ⟨Or.inr rfl, ⟨fun h0 => absurd h0 (by simp), fun hw => absurd hw (by simp)⟩,
              ⟨fun _ => Or.inr (Or.inr (Or.inr (Or.inr
                  ⟨fieldnames, tgt, rfl, hfe, heq, heq2⟩))),
               fun _ => rfl⟩⟩
          · next r2 tr2 qa2 heq2 =>
            refine ⟨Or.inl rfl, ⟨fun _ => ⟨(fieldnames, r2), rfl⟩, fun _ => rfl⟩,
              ⟨fun h1 => absurd h1 (by simp), ?_⟩⟩
            rintro (hc | hn | he | ⟨f, hf, hpt2⟩ | ⟨f, t, hf, hfne2, hpt2, hrb⟩)
            · exact absurd hc hcred
            · exact absurd hn (by simp)
            · injection he with he'
              exact absurd he' hfe
            · injection hf with hf'
              subst hf'
              rw [heq] at hpt2
              exact absurd hpt2 (by simp)
            · injection hf with hf'
              subst hf'
              rw [heq] at hpt2
              injection hpt2 with ht'
              subst ht'
              rw [heq2] at hrb
              exact absurd hrb (by simp)

/-! ### Counter invariants of the orchestrator (C9) -/

theorem classifyGo_counts (target : Str) (overwrite : Bool) :
    ∀ (l : List (Nat × Row)),
      (classifyGo target overwrite l).skipped + (classifyGo target overwrite l).eligible
        = l.length ∧
      (classifyGo target overwrite l).maskedSrcs.length
        = (classifyGo target overwrite l).eligible := by
  intro l
  induction l with
  | nil => exact ⟨rfl, rfl⟩
  | cons p rest ih =>
    obtain ⟨idx, row⟩ := p
    have hunf : classifyGo target overwrite ((idx, row) :: rest)
        = (if pyStrip (getOrEmpty row "source".data) = [] then
            ⟨(classifyGo target overwrite rest).skipped + 1,
             (classifyGo target overwrite rest).eligible,
             (classifyGo target overwrite rest).idxs,
             (classifyGo target overwrite rest).maskedSrcs,
             (classifyGo target overwrite rest).phLists⟩
          else if pyStrip (getOrEmpty row target) ≠ [] ∧ overwrite = false then
            ⟨(classifyGo target overwrite rest).skipped + 1,
             (classifyGo target overwrite rest).eligible,
             (classifyGo target overwrite rest).idxs,
             (classifyGo target overwrite rest).maskedSrcs,
             (classifyGo target overwrite rest).phLists⟩
          else
            ⟨(classifyGo target overwrite rest).skipped,
             (classifyGo target overwrite rest).eligible + 1,
             idx :: (classifyGo target overwrite rest).idxs,
             (mask_placeholders (pyStrip (getOrEmpty row "source".data))).1
               :: (classifyGo target overwrite rest).maskedSrcs,
             (mask_placeholders (pyStrip (getOrEmpty row "source".data))).2
               :: (classifyGo target overwrite rest).phLists⟩) := rfl
    rw [hunf]
    split
    · refine ⟨?_, ih.2⟩
      show (classifyGo target overwrite rest).skipped + 1
        + (classifyGo target overwrite rest).eligible = rest.length + 1
      have h1 := ih.1
      omega
    · split
      · refine ⟨?_, ih.2⟩
        show (classifyGo target overwrite rest).skipped + 1
          + (classifyGo target overwrite rest).eligible = rest.length + 1
        have h1 := ih.1
        omega
      · refine ⟨?_, ?_⟩
        · show (classifyGo target overwrite rest).skipped
            + ((classifyGo target overwrite rest).eligible + 1) = rest.length + 1
          have h1 := ih.1
          omega
        · show (classifyGo target overwrite rest).maskedSrcs.length + 1
            = (classifyGo target overwrite rest).eligible + 1
          have h2 := ih.2
          omega

theorem translate_batch_length {texts : List Str} {data : List (List Str)}
    {out : List Str} (h : translate_batch texts data = .ok out) :
    out.length = texts.length := by
  rw [translate_batch] at h
  split at h
  · next he =>
    injection h with h'
    rw [← h', he]
  · simp only [] at h
    split at h
    · exact absurd h (by simp)
    · next hne =>
      injection h with h'
      rw [← h']
      exact not_not.mp hne

theorem processItems_counts (target : Str) :
    ∀ (items : List (Nat × Str × List Str × Str)) (rows : List Row) (tr qa : Nat),
      (processItems target items rows tr qa).2.1
        + (processItems target items rows tr qa).2.2 = tr + qa + items.length := by
  intro items
  induction items with
  | nil => intro rows tr qa; rfl
  | cons it rest ih =>
    intro rows tr qa
    obtain ⟨idx, msrc, phs, mtr⟩ := it
    show (if placeholders_match msrc mtr = false then
        processItems target rest rows tr (qa + 1)
      else processItems target rest
        (updateAt rows idx (fun r => updateRow r target (restore_placeholders mtr phs)))
        (tr + 1) qa).2.1
      + (if placeholders_match msrc mtr = false then
        processItems target rest rows tr (qa + 1)
      else processItems target rest
        (updateAt rows idx (fun r => updateRow r target (restore_placeholders mtr phs)))
        (tr + 1) qa).2.2
      = tr + qa + ((idx, msrc, phs, mtr) :: rest).length
    simp only [List.length_cons]
    split
    · have h1 := ih rows tr (qa + 1)
      omega
    · have h1 := ih
        (updateAt rows idx (fun r => updateRow r target (restore_placeholders mtr phs)))
        (tr + 1) qa
      omega

theorem runBatches_counts (oracle : Nat → Except Unit (List (List Str))) (target : Str)
    (idxs : List Nat) (maskedSrcs : List Str) (phLists : List (List Str)) :
    ∀ (batches : List (List Nat)) (b : Nat) (rows : List Row) (tr qa : Nat)
      (out : List Row × Nat × Nat),
      runBatches oracle target idxs maskedSrcs phLists batches b rows tr qa = .ok out →
      out.2.1 + out.2.2 = tr + qa + batches.flatten.length := by
  intro batches
  induction batches with
  | nil =>
    intro b rows tr qa out h
    rw [show runBatches oracle target idxs maskedSrcs phLists [] b rows tr qa
        = .ok (rows, tr, qa) from rfl] at h
    injection h with h'
    rw [← h']
    simp
  | cons batch rest ih =>
    intro b rows tr qa out h
    have hunf : runBatches oracle target idxs maskedSrcs phLists (batch :: rest) b rows tr qa
        = match oracle b with
          | .error _ => .error ()
          | .ok data =>
            match translate_batch (batch.map (fun i => maskedSrcs.getD i [])) data with
            | .error _ => .error ()
            | .ok translations =>
              match processItems target
                  ((batch.map (fun i => idxs.getD i 0)).zip
                    ((batch.map (fun i => maskedSrcs.getD i [])).zip
                      ((batch.map (fun i => phLists.getD i [])).zip translations)))
                  rows tr qa with
              | (rows', translated', qa') =>
                runBatches oracle target idxs maskedSrcs phLists rest (b + 1)
                  rows' translated' qa' := rfl
    rw [hunf] at h
    split at h
    · exact absurd h (by simp)
    · split at h
      · exact absurd h (by simp)
      · next translations htb =>
        rcases hp : processItems target
            ((batch.map (fun i => idxs.getD i 0)).zip
              ((batch.map (fun i => maskedSrcs.getD i [])).zip
                ((batch.map (fun i => phLists.getD i [])).zip translations)))
            rows tr qa with ⟨rows', tr', qa'⟩
        rw [hp] at h
        have htl : translations.length = batch.length := by
          have h1 := translate_batch_length htb
          rw [h1]
          exact List.length_map _ _
        have hlen : ((batch.map (fun i => idxs.getD i 0)).zip
            ((batch.map (fun i => maskedSrcs.getD i [])).zip
              ((batch.map (fun i => phLists.getD i [])).zip translations))).length
            = batch.length := by
          simp [List.length_zip, htl]
        have hpi := processItems_counts target
          ((batch.map (fun i => idxs.getD i 0)).zip
            ((batch.map (fun i => maskedSrcs.getD i [])).zip
              ((batch.map (fun i => phLists.getD i [])).zip translations)))
          rows tr qa
        rw [hp, hlen] at hpi
        replace hpi : tr' + qa' = tr + qa + batch.length := hpi
        have hrec := ih (b + 1) rows' tr' qa' out h
        simp only [List.flatten_cons, List.length_append]
        omega

theorem batched_indices_flatten_length (texts : List Str) (bs : Nat) :
    (batched_indices texts bs).flatten.length = texts.length := by
  rw [batched_indices, batchGo_flatten]
  simp

/-- Claim C9: every run of `main` that exits 0 on an input of N rows
prints counters with skipped + eligible = N and
translated + qa_failed = eligible. -/
theorem claim_C9 (key region : Option Str) (header : Option (List Str)) (rows : List Row)
    (overwrite : Bool) (batchSize : Nat) (oracle : Nat → Except Unit (List (List Str)))
    (h : (mainModel key region header rows overwrite batchSize oracle).exitCode = 0) :
    (mainModel key region header rows overwrite batchSize oracle).total = rows.length ∧
    (mainModel key region header rows overwrite batchSize oracle).skipped
      + (mainModel key region header rows overwrite batchSize oracle).eligible
      = rows.length ∧
    (mainModel key region header rows overwrite batchSize oracle).translated
      + (mainModel key region header rows overwrite batchSize oracle).qaFailed
      = (mainModel key region header rows overwrite batchSize oracle).eligible := by
  rw [mainModel.eq_def] at h
  split at h
  · simp at h
  · next hcred =>
    split at h
    · simp at h
    · next fieldnames =>
      split at h
      · simp at h
      · next hfe =>
        split at h
        · simp at h
        · next tgt heqPick =>
          simp only [] at h
          split at h
          · simp at h
          · next rows2 tr2 qa2 heqRB =>
            have hm : mainModel key region (some fieldnames) rows overwrite batchSize oracle
                = ⟨0, some (fieldnames, rows2), rows.length,
                    (classifyGo tgt overwrite rows.enum).eligible, tr2,
                    (classifyGo tgt overwrite rows.enum).skipped, qa2⟩ := by
              rw [mainModel.eq_def]
              simp [hcred, hfe, heqPick, heqRB]
            have hc := classifyGo_counts tgt overwrite rows.enum
            have hrc := runBatches_counts oracle tgt _ _ _ _ 0 rows 0 0
              (rows2, tr2, qa2) heqRB
            replace hrc : tr2 + qa2 = 0 + 0 + (batched_indices
                (classifyGo tgt overwrite rows.enum).maskedSrcs
                batchSize).flatten.length := hrc
            have hfl := batched_indices_flatten_length
              (classifyGo tgt overwrite rows.enum).maskedSrcs batchSize
            have hen : rows.enum.length = rows.length := List.enum_length
            rw [hm]
            refine ⟨rfl, ?_, ?_⟩
            · show (classifyGo tgt overwrite rows.enum).skipped
                + (classifyGo tgt overwrite rows.enum).eligible = rows.length
              rw [hc.1, hen]
            · show tr2 + qa2 = (classifyGo tgt overwrite rows.enum).eligible
              have h2 := hc.2
              omega

theorem claim_C9_witness :
    (mainModel (some "k".data) (some "r".data)
        (some ["source".data, "translation".data]) [] false 8
        (fun _ => Except.ok [])).exitCode = 0 ∧
    ((mainModel (some "k".data) (some "r".data)
        (some ["source".data, "translation".data]) [] false 8
        (fun _ => Except.ok [])).total = ([] : List Row).length ∧
     (mainModel (some "k".data) (some "r".data)
        (some ["source".data, "translation".data]) [] false 8
        (fun _ => Except.ok [])).skipped
       + (mainModel (some "k".data) (some "r".data)
          (some ["source".data, "translation".data]) [] false 8
          (fun _ => Except.ok [])).eligible = ([] : List Row).length ∧
     (mainModel (some "k".data) (some "r".data)
        (some ["source".data, "translation".data]) [] false 8
        (fun _ => Except.ok [])).translated
       + (mainModel (some "k".data) (some "r".data)
          (some ["source".data, "translation".data]) [] false 8
          (fun _ => Except.ok [])).qaFailed
       = (mainModel (some "k".data) (some "r".data)
          (some ["source".data, "translation".data]) [] false 8
          (fun _ => Except.ok [])).eligible) := by
  have h0 : (mainModel (some "k".data) (some "r".data)
      (some ["source".data, "translation".data]) [] false 8
      (fun _ => Except.ok [])).exitCode = 0 := rfl
  exact ⟨h0, claim_C9 (some "k".data) (some "r".data)
    (some ["source".data, "translation".data]) [] false 8 (fun _ => Except.ok []) h0⟩
